import Mathlib

/-!
Verification of the DjangoDav resource abstraction (`djangodav/resources.py`).

The development shallowly embeds the Python code:

* logical paths are Python strings (`String`), and the string manipulation
  performed by `DavResource.__init__` (trailing-slash stripping),
  `os.path.dirname` and the `safe_join` helper is modelled character by
  character;
* the filesystem consumed through the `os` / `shutil` modules is modelled as a
  flat association list from segment paths to entries (directory or file with
  its byte content), with the primitives `os.listdir`, `os.mkdir`, `os.rmdir`,
  `os.remove`, `os.rename` and `shutil.copy` as explicit state transformers
  that can fail (`Except`);
* the recursive methods `delete`, `copy`, `move` and `get_descendants` are
  embedded as fuel-indexed functions; exhausting the fuel is a distinguished
  error, so a genuine store-level error is never confused with running out of
  fuel;
* `get_etag` is embedded on top of a full executable MD5 implementation, with
  the incremental `hashlib` update interface modelled as accumulation of the
  bytes fed to the hash.
-/

set_option maxHeartbeats 1000000

namespace DjangoDav

/-! ## String-level path handling -/

/-- The trailing-slash stripping loop of `DavResource.__init__`:
`while path.endswith('/'): path = path[:-1]`, on the character list. -/
def rstripSlash : List Char → List Char
  | [] => []
  | c :: cs =>
    match rstripSlash cs with
    | [] => if c = '/' then [] else [c]
    | r => c :: r

/-- Path normalisation performed by the `DavResource` constructor. -/
def normPath (s : String) : String :=
  String.mk (rstripSlash s.data)

/-- Whether a string ends with the `'/'` character. -/
def endsSlash (s : String) : Bool :=
  match s.data.getLast? with
  | some c => c = '/'
  | none => false

/-- Index of the last `'/'` in a character list (Python `str.rfind('/')`). -/
def rfindSlash : List Char → Option Nat
  | [] => none
  | c :: cs =>
    match rfindSlash cs with
    | some i => some (i + 1)
    | none => if c = '/' then some 0 else none

/-- `os.path.dirname` (posixpath): take everything up to and including the last
slash, then strip trailing slashes unless the head consists of slashes only. -/
def dirname (s : List Char) : List Char :=
  match rfindSlash s with
  | none => []
  | some i =>
    let head := s.take (i + 1)
    if head.all (fun c => c = '/') then head else rstripSlash head

/-- The logical path stored by the resource produced by `get_parent`:
`self.__class__(self.server, os.path.dirname(self.path))`, whose constructor
re-normalises the path. -/
def parentPath (p : String) : String :=
  normPath (String.mk (dirname p.data))

/-! ## The `safe_join` helper (`djangodav.utils`) -/

/-- Error raised when a join would escape the namespace root. -/
inductive JoinErr where
  | pathEscape
  deriving DecidableEq, Repr

/-- Splitting a character list at `'/'` (Python `str.split('/')`); the first
argument accumulates the current segment in reverse. -/
def splitSlash (acc : List Char) : List Char → List String
  | [] => [String.mk acc.reverse]
  | c :: cs =>
    if c = '/' then String.mk acc.reverse :: splitSlash [] cs
    else splitSlash (c :: acc) cs

/-- Stack-based normalisation of the relative segments: empty and `.` segments
are dropped, `..` pops the last kept segment and fails with `pathEscape` when
there is nothing left to pop, every other segment is kept.  The first argument
is the stack of kept segments in reverse order. -/
def normStack (st : List String) : List String → Except JoinErr (List String)
  | [] => .ok st.reverse
  | seg :: rest =>
    if seg = "" ∨ seg = "." then normStack st rest
    else if seg = ".." then
      match st with
      | [] => .error .pathEscape
      | _ :: st2 => normStack st2 rest
    else normStack (seg :: st) rest

/-- Modelled from the spec: `safe_join` from `djangodav.utils`, whose source is
not part of the repository snapshot (only its caller `get_abs_path` is).  Per
the spec, it joins the namespace root with a caller-supplied relative path
using "a join that rejects escaping the root (no `..`-driven traversal outside
root)" and fails with the `PathEscape` error kind otherwise. -/
def safe_join (root : String) (path : String) : Except JoinErr String :=
  (normStack [] (splitSlash [] path.data)).map
    (fun segs => segs.foldl (fun a seg => a ++ "/" ++ seg) root)

/-- `get_abs_path`: `safe_join(self.root, self.path)`. -/
def get_abs_path (root : String) (path : String) : Except JoinErr String :=
  safe_join root path

/-! ## MD5 (`hashlib.md5`) -/

namespace MD5

/-- The 64 sine-derived round constants of MD5. -/
def K : List Nat :=
  [0xd76aa478, 0xe8c7b756, 0x242070db, 0xc1bdceee,
   0xf57c0faf, 0x4787c62a, 0xa8304613, 0xfd469501,
   0x698098d8, 0x8b44f7af, 0xffff5bb1, 0x895cd7be,
   0x6b901122, 0xfd987193, 0xa679438e, 0x49b40821,
   0xf61e2562, 0xc040b340, 0x265e5a51, 0xe9b6c7aa,
   0xd62f105d, 0x02441453, 0xd8a1e681, 0xe7d3fbc8,
   0x21e1cde6, 0xc33707d6, 0xf4d50d87, 0x455a14ed,
   0xa9e3e905, 0xfcefa3f8, 0x676f02d9, 0x8d2a4c8a,
   0xfffa3942, 0x8771f681, 0x6d9d6122, 0xfde5380c,
   0xa4beea44, 0x4bdecfa9, 0xf6bb4b60, 0xbebfbc70,
   0x289b7ec6, 0xeaa127fa, 0xd4ef3085, 0x04881d05,
   0xd9d4d039, 0xe6db99e5, 0x1fa27cf8, 0xc4ac5665,
   0xf4292244, 0x432aff97, 0xab9423a7, 0xfc93a039,
   0x655b59c3, 0x8f0ccc92, 0xffeff47d, 0x85845dd1,
   0x6fa87e4f, 0xfe2ce6e0, 0xa3014314, 0x4e0811a1,
   0xf7537e82, 0xbd3af235, 0x2ad7d2bb, 0xeb86d391]

/-- The per-round left-rotation amounts of MD5. -/
def S : List Nat :=
  [7, 12, 17, 22, 7, 12, 17, 22, 7, 12, 17, 22, 7, 12, 17, 22,
   5, 9, 14, 20, 5, 9, 14, 20, 5, 9, 14, 20, 5, 9, 14, 20,
   4, 11, 16, 23, 4, 11, 16, 23, 4, 11, 16, 23, 4, 11, 16, 23,
   6, 10, 15, 21, 6, 10, 15, 21, 6, 10, 15, 21, 6, 10, 15, 21]

/-- Left rotation of a 32-bit word represented as a `Nat` below `2^32`. -/
def rotl32 (x n : Nat) : Nat :=
  ((x <<< n) % 4294967296) ||| (x >>> (32 - n))

/-- The eight little-endian bytes of the 64-bit message bit length. -/
def lenBytes (len : Nat) : List Nat :=
  (List.range 8).map (fun i => ((8 * len) >>> (8 * i)) % 256)

/-- MD5 padding: a `0x80` byte, zeros up to 56 mod 64, then the bit length. -/
def pad (msg : List Nat) : List Nat :=
  msg ++ [0x80] ++ List.replicate ((120 - (msg.length % 64 + 1)) % 64) 0
      ++ lenBytes msg.length

/-- The `i`-th little-endian 32-bit word of a 64-byte chunk. -/
def word (chunk : List Nat) (i : Nat) : Nat :=
  chunk.getD (4 * i) 0 + 256 * chunk.getD (4 * i + 1) 0
    + 65536 * chunk.getD (4 * i + 2) 0 + 16777216 * chunk.getD (4 * i + 3) 0

/-- One of the 64 MD5 operations, on the running `(a, b, c, d)` state. -/
def stepOp (chunk : List Nat) (st : Nat × Nat × Nat × Nat) (i : Nat) :
    Nat × Nat × Nat × Nat :=
  let a := st.1
  let b := st.2.1
  let c := st.2.2.1
  let d := st.2.2.2
  let f :=
    if i < 16 then (b &&& c) ||| ((b ^^^ 0xffffffff) &&& d)
    else if i < 32 then (d &&& b) ||| ((d ^^^ 0xffffffff) &&& c)
    else if i < 48 then b ^^^ c ^^^ d
    else c ^^^ (b ||| (d ^^^ 0xffffffff))
  let g :=
    if i < 16 then i
    else if i < 32 then (5 * i + 1) % 16
    else if i < 48 then (3 * i + 5) % 16
    else (7 * i) % 16
  let f2 := (f + a + K.getD i 0 + word chunk g) % 4294967296
  (d, (b + rotl32 f2 (S.getD i 0)) % 4294967296, b, c)

/-- Compression of one 64-byte chunk into the running state. -/
def compress (st : Nat × Nat × Nat × Nat) (chunk : List Nat) :
    Nat × Nat × Nat × Nat :=
  let r := (List.range 64).foldl (stepOp chunk) st
  ((st.1 + r.1) % 4294967296, (st.2.1 + r.2.1) % 4294967296,
   (st.2.2.1 + r.2.2.1) % 4294967296, (st.2.2.2 + r.2.2.2) % 4294967296)

/-- Processing of the padded message, one 64-byte chunk per fuel unit. -/
def loop : Nat → Nat × Nat × Nat × Nat → List Nat → Nat × Nat × Nat × Nat
  | 0, st, _ => st
  | n + 1, st, msg => loop n (compress st (msg.take 64)) (msg.drop 64)

/-- The sixteen digest bytes of a byte message. -/
def md5Bytes (msg : List Nat) : List Nat :=
  let p := pad msg
  let r := loop (p.length / 64) (0x67452301, 0xefcdab89, 0x98badcfe, 0x10325476) p
  [r.1, r.2.1, r.2.2.1, r.2.2.2].flatMap
    (fun w => (List.range 4).map (fun i => (w >>> (8 * i)) % 256))

/-- A hexadecimal digit character. -/
def hexChar (n : Nat) : Char :=
  if n < 10 then Char.ofNat (48 + n) else Char.ofNat (87 + n)

end MD5

/-- The lowercase hexadecimal MD5 digest of a byte message
(`hashlib.md5(msg).hexdigest()`). -/
def md5Hex (msg : List Nat) : String :=
  String.mk ((MD5.md5Bytes msg).flatMap (fun b => [MD5.hexChar (b / 16), MD5.hexChar (b % 16)]))

/-! ## UTF-8 encoding (`str.encode('utf-8')`) -/

/-- UTF-8 encoding of a single character as a list of byte values. -/
def charUtf8 (c : Char) : List Nat :=
  let n := c.toNat
  if n < 128 then [n]
  else if n < 2048 then [192 + n / 64, 128 + n % 64]
  else if n < 65536 then [224 + n / 4096, 128 + n / 64 % 64, 128 + n % 64]
  else [240 + n / 262144, 128 + n / 4096 % 64, 128 + n / 64 % 64, 128 + n % 64]

/-- UTF-8 encoding of a string as a list of byte values. -/
def utf8 (s : String) : List Nat :=
  s.data.flatMap charUtf8

/-! ## `get_etag` -/

/-- The incremental interface of a `hashlib` hash object: the bytes fed so far.
`hashlib` guarantees that `m.update(a); m.update(b)` is equivalent to
`m.update(a + b)`, so the context is exactly the accumulated message. -/
structure HashCtx where
  buf : List Nat
  deriving DecidableEq, Repr

/-- `hashsum.update(bs)`. -/
def HashCtx.update (ctx : HashCtx) (bs : List Nat) : HashCtx :=
  ⟨ctx.buf ++ bs⟩

/-- `hashsum.hexdigest()` for an MD5 hash object. -/
def HashCtx.hexdigest (ctx : HashCtx) : String :=
  md5Hex ctx.buf

/-- `hashlib.md5()`. -/
def md5new : HashCtx :=
  ⟨[]⟩

/-- `get_etag`: feed the UTF-8 bytes of the absolute path, then the bytes of
`str(self.get_mtime_stamp())`, then the bytes of `str(self.get_size())`, into
one MD5 hash object and return its hex digest.  The textual renderings of the
modification time and the size are taken as string arguments. -/
def get_etag (absPath mtimeStr sizeStr : String) : String :=
  ((((md5new.update (utf8 absPath)).update (utf8 mtimeStr)).update
      (utf8 sizeStr))).hexdigest

/-- The full byte string a single `get_etag` call feeds into MD5. -/
def etagInput (absPath mtimeStr sizeStr : String) : List Nat :=
  utf8 absPath ++ utf8 mtimeStr ++ utf8 sizeStr

/-! ## The filesystem store

Logical locations below the namespace root are segment lists.  The store is a
flat association list from such locations to entries; the `os` primitives used
by `DavResource` are explicit state transformers over it. -/

/-- A location relative to the namespace root, as path segments. -/
abbrev Path := List String

/-- One filesystem entry: a directory, or a regular file with its bytes. -/
inductive Entry where
  | dir
  | file (content : String)
  deriving DecidableEq, Repr

/-- The store: an association list from locations to entries. -/
abbrev Fs := List (Path × Entry)

/-- Error kinds of the store primitives.  `fuelOut` is not a store error: it
only signals that the fuel of the embedding was exhausted. -/
inductive Err where
  | notFound
  | notADir
  | isADir
  | dirNotEmpty
  | already
  | fuelOut
  deriving DecidableEq, Repr

/-- `prefixRest p k = some r` exactly when `k = p ++ r`. -/
def prefixRest : Path → Path → Option Path
  | [], k => some k
  | _ :: _, [] => none
  | a :: p, b :: k => if a = b then prefixRest p k else none

/-- `le p k`: the location `k` lies in the subtree rooted at `p`. -/
def le (p k : Path) : Bool :=
  (prefixRest p k).isSome

/-- Entry stored at a location (a `stat` that distinguishes the entry kind). -/
def fsGet : Fs → Path → Option Entry
  | [], _ => none
  | pe :: fs, p => if pe.1 = p then some pe.2 else fsGet fs p

/-- `os.path.isdir` on the model. -/
def isdir (fs : Fs) (p : Path) : Bool :=
  decide (fsGet fs p = some Entry.dir)

/-- `os.path.isfile` on the model. -/
def isfile (fs : Fs) (p : Path) : Bool :=
  match fsGet fs p with
  | some (.file _) => true
  | _ => false

/-- `os.path.exists` on the model. -/
def fsExists (fs : Fs) (p : Path) : Bool :=
  (fsGet fs p).isSome

/-- `childName p k = some n` exactly when `k = p ++ [n]`. -/
def childName (p k : Path) : Option String :=
  match prefixRest p k with
  | some [n] => some n
  | _ => none

/-- `os.listdir`: the names of the direct children of `p`, in store order. -/
def listdir (fs : Fs) (p : Path) : List String :=
  fs.filterMap (fun pe => childName p pe.1)

/-- Removal of the entry stored at exactly `p`. -/
def fsErase (fs : Fs) (p : Path) : Fs :=
  fs.filter (fun pe => !decide (pe.1 = p))

/-- Store update: replace the entry at `p`, or append it if absent. -/
def fsPut : Fs → Path → Entry → Fs
  | [], p, e => [(p, e)]
  | pe :: fs, p, e => if pe.1 = p then (p, e) :: fs else pe :: fsPut fs p e

/-- The store with the whole subtree rooted at `p` removed. -/
def removeSubtree (fs : Fs) (p : Path) : Fs :=
  fs.filter (fun pe => !le p pe.1)

/-- Number of entries in the subtree rooted at `p`. -/
def subCount (fs : Fs) (p : Path) : Nat :=
  (fs.filter (fun pe => le p pe.1)).length

/-- `os.rmdir`: remove an empty directory. -/
def rmdir (fs : Fs) (p : Path) : Except Err Fs :=
  if isdir fs p then
    if listdir fs p = [] then .ok (fsErase fs p) else .error .dirNotEmpty
  else .error .notFound

/-- `os.remove`: remove a regular file. -/
def fsRemove (fs : Fs) (p : Path) : Except Err Fs :=
  if isfile fs p then .ok (fsErase fs p) else .error .notFound

/-- `os.mkdir`: create a directory; fails if the location already exists or
its parent is not an existing directory. -/
def mkdir (fs : Fs) (p : Path) : Except Err Fs :=
  if fsExists fs p then .error .already
  else
    match p with
    | [] => .error .notFound
    | _ :: _ =>
      if isdir fs p.dropLast then .ok (fs ++ [(p, Entry.dir)]) else .error .notFound

/-- Relocation of the subtree at `src` to `dst`, entry by entry. -/
def renameMap (fs : Fs) (src dst : Path) : Fs :=
  fs.map (fun pe =>
    match prefixRest src pe.1 with
    | some r => (dst ++ r, pe.2)
    | none => pe)

/-- `os.rename`: move the entry (and its subtree) at `src` to `dst`.  The
callers in `resources.py` always remove a pre-existing destination first, so
an existing destination is modelled as an error. -/
def rename (fs : Fs) (src dst : Path) : Except Err Fs :=
  if fsExists fs src then
    if fsExists fs dst then .error .already
    else
      match dst with
      | [] => .error .notFound
      | _ :: _ =>
        if isdir fs dst.dropLast then .ok (renameMap fs src dst)
        else .error .notFound
  else .error .notFound

/-- `os.path.basename` on a segment location. -/
def basename (p : Path) : String :=
  p.getLastD ("")

/-- `shutil.copy`: byte copy of the file at `src` to `dst` (into `dst` when
`dst` is a directory, which the callers in `resources.py` rule out first). -/
def shutilCopy (fs : Fs) (src dst : Path) : Except Err Fs :=
  match fsGet fs src with
  | some (.file c) =>
    let d := if isdir fs dst then dst ++ [basename src] else dst
    match fsGet fs d with
    | some .dir => .error .isADir
    | _ =>
      match d with
      | [] => .error .notFound
      | _ :: _ =>
        if isdir fs d.dropLast then .ok (fsPut fs d (Entry.file c))
        else .error .notFound
  | some .dir => .error .isADir
  | none => .error .notFound

/-- Left fold of a fallible state transformer over a list of child names; the
first error aborts the remaining iterations, as an exception aborts a Python
`for` loop. -/
def foldE (f : Fs → String → Except Err Fs) : Fs → List String → Except Err Fs
  | fs, [] => .ok fs
  | fs, n :: ns =>
    match f fs n with
    | .error e => .error e
    | .ok fs2 => foldE f fs2 ns

/-- `DavResource.delete`, fuel-indexed: delete the children of a directory
first, then `os.rmdir` it; `os.remove` a file; silently do nothing when the
location holds neither. -/
def deleteOp : Nat → Fs → Path → Except Err Fs
  | 0, _, _ => .error .fuelOut
  | fuel + 1, fs, p =>
    if isdir fs p then
      match foldE (fun f n => deleteOp fuel f (p ++ [n])) fs (listdir fs p) with
      | .error e => .error e
      | .ok fs2 => rmdir fs2 p
    else if isfile fs p then fsRemove fs p
    else .ok fs

/-- `DavResource.copy`, fuel-indexed.  For a directory source: delete a
destination that exists as a file, create the destination directory if it is
not one, and when `depth != 0` copy each child to the like-named child of the
destination with `depth - 1`.  Otherwise: delete a destination that exists as
a directory, then `shutil.copy` the bytes. -/
def copyOp : Nat → Fs → Path → Path → Int → Except Err Fs
  | 0, _, _, _, _ => .error .fuelOut
  | fuel + 1, fs, src, dst, depth =>
    if isdir fs src then
      match (if isfile fs dst then deleteOp fuel fs dst else .ok fs) with
      | .error e => .error e
      | .ok fs1 =>
        match (if isdir fs1 dst then .ok fs1 else mkdir fs1 dst) with
        | .error e => .error e
        | .ok fs2 =>
          if depth ≠ 0 then
            foldE (fun f n => copyOp fuel f (src ++ [n]) (dst ++ [n]) (depth - 1))
              fs2 (listdir fs2 src)
          else .ok fs2
    else
      match (if isdir fs dst then deleteOp fuel fs dst else .ok fs) with
      | .error e => .error e
      | .ok fs1 => shutilCopy fs1 src dst

/-- `DavResource.move`, fuel-indexed: delete an existing destination of any
type; then, for a directory source, create the destination directory, move
every child into it and delete the emptied source; otherwise `os.rename`. -/
def moveOp : Nat → Fs → Path → Path → Except Err Fs
  | 0, _, _, _ => .error .fuelOut
  | fuel + 1, fs, src, dst =>
    match (if fsExists fs dst then deleteOp fuel fs dst else .ok fs) with
    | .error e => .error e
    | .ok fs1 =>
      if isdir fs1 src then
        match mkdir fs1 dst with
        | .error e => .error e
        | .ok fs2 =>
          match foldE (fun f n => moveOp fuel f (src ++ [n]) (dst ++ [n]))
              fs2 (listdir fs2 src) with
          | .error e => .error e
          | .ok fs3 => deleteOp fuel fs3 src
      else rename fs1 src dst

/-- Concatenation of the partial yield sequences of the children of one node:
a failed child traversal keeps its own prefix of yields and aborts the rest,
as an exception propagating out of a Python generator does. -/
def joinDesc : List (List Path × Option Err) → List Path × Option Err
  | [] => ([], none)
  | (ps, some e) :: _ => (ps, some e)
  | (ps, none) :: rest =>
    let r := joinDesc rest
    (ps ++ r.1, r.2)

/-- `DavResource.get_descendants`, fuel-indexed, as the pair of the sequence
of locations the generator yields and the error aborting the iteration, if
any.  The resource itself is yielded first iff `include_self`; when
`depth != 0` the children are traversed with `depth - 1` and
`include_self = True`, and `get_children` (= `os.listdir`) raises on a
location that is not a directory. -/
def get_descendants : Nat → Fs → Path → Int → Bool → List Path × Option Err
  | 0, _, _, _, _ => ([], some .fuelOut)
  | fuel + 1, fs, p, depth, includeSelf =>
    let selfPart : List Path := if includeSelf then [p] else []
    if depth ≠ 0 then
      if isdir fs p then
        let r := joinDesc ((listdir fs p).map
          (fun n => get_descendants fuel fs (p ++ [n]) (depth - 1) true))
        (selfPart ++ r.1, r.2)
      else (selfPart, some (if fsExists fs p then .notADir else .notFound))
    else (selfPart, none)

/-! ## Lemmas: path prefixes -/

theorem prefixRest_append (p r : Path) : prefixRest p (p ++ r) = some r := by
  induction p with
  | nil => rfl
  | cons a p ih => simp [prefixRest, ih]

theorem prefixRest_eq_some {p k r : Path} (h : prefixRest p k = some r) :
    k = p ++ r := by
  induction p generalizing k with
  | nil =>
    simp only [prefixRest, Option.some.injEq] at h
    simpa using h
  | cons a p ih =>
    cases k with
    | nil => simp [prefixRest] at h
    | cons b k =>
      by_cases hab : a = b
      · subst hab
        simp only [prefixRest, if_pos rfl] at h
        simpa using ih h
      · simp [prefixRest, Ne.symm hab, hab] at h

theorem le_iff {p k : Path} : le p k = true ↔ ∃ r, k = p ++ r := by
  constructor
  · intro h
    rcases Option.isSome_iff_exists.mp h with ⟨r, hr⟩
    exact ⟨r, prefixRest_eq_some hr⟩
  · rintro ⟨r, rfl⟩
    simp [le, prefixRest_append]

theorem le_refl (p : Path) : le p p = true :=
  le_iff.mpr ⟨[], by simp⟩

theorem le_append (p r : Path) : le p (p ++ r) = true :=
  le_iff.mpr ⟨r, rfl⟩

theorem le_nil (k : Path) : le [] k = true :=
  le_iff.mpr ⟨k, rfl⟩

theorem le_trans {p q k : Path} (h1 : le p q = true) (h2 : le q k = true) :
    le p k = true := by
  rcases le_iff.mp h1 with ⟨r1, rfl⟩
  rcases le_iff.mp h2 with ⟨r2, rfl⟩
  exact le_iff.mpr ⟨r1 ++ r2, by simp⟩

theorem le_length {p k : Path} (h : le p k = true) : p.length ≤ k.length := by
  rcases le_iff.mp h with ⟨r, rfl⟩
  simp

theorem le_antisymm {p k : Path} (h1 : le p k = true) (h2 : le k p = true) :
    p = k := by
  rcases le_iff.mp h1 with ⟨r, rfl⟩
  have : r = [] := by
    have := le_length h2
    simp at this
    simpa using this
  simp [this]

theorem le_child_self (p : Path) (n : String) : le (p ++ [n]) p = false := by
  by_contra h
  have := le_length (by simpa using h)
  simp at this

theorem le_comparable {p q k : Path} (h1 : le p k = true) (h2 : le q k = true) :
    le p q = true ∨ le q p = true := by
  rcases le_iff.mp h1 with ⟨r1, hr1⟩
  rcases le_iff.mp h2 with ⟨r2, hr2⟩
  rcases Nat.le_total p.length q.length with hl | hl
  · left
    have t1 : k.take p.length = p := by
      rw [hr1]
      exact List.take_left p r1
    have t2 : k.take p.length = q.take p.length := by
      rw [hr2, List.take_append_of_le_length hl]
    have hpq : q.take p.length = p := t2.symm.trans t1
    have hsplit := List.take_append_drop p.length q
    rw [hpq] at hsplit
    exact le_iff.mpr ⟨_, hsplit.symm⟩
  · right
    have t1 : k.take q.length = q := by
      rw [hr2]
      exact List.take_left q r2
    have t2 : k.take q.length = p.take q.length := by
      rw [hr1, List.take_append_of_le_length hl]
    have hqp : p.take q.length = q := t2.symm.trans t1
    have hsplit := List.take_append_drop q.length p
    rw [hqp] at hsplit
    exact le_iff.mpr ⟨_, hsplit.symm⟩

theorem le_append_one {p k : Path} (h : le p k = true)
    (hne : p ≠ k) : le p (k.dropLast) = true := by
  rcases le_iff.mp h with ⟨r, rfl⟩
  cases r with
  | nil => simp at hne
  | cons a r =>
    refine le_iff.mpr ⟨(a :: r).dropLast, ?_⟩
    rw [List.dropLast_append_of_ne_nil]
    simp

/-! ## Lemmas: lookups, filters, updates -/

theorem fsGet_nil (k : Path) : fsGet [] k = none := rfl

theorem fsGet_cons (pe : Path × Entry) (fs : Fs) (k : Path) :
    fsGet (pe :: fs) k = if pe.1 = k then some pe.2 else fsGet fs k := rfl

theorem fsGet_filterKey (f : Path → Bool) (fs : Fs) (k : Path) :
    fsGet (fs.filter (fun pe => f pe.1)) k = if f k then fsGet fs k else none := by
  induction fs with
  | nil => simp [fsGet_nil]
  | cons pe fs ih =>
    rw [List.filter_cons]
    by_cases hf : f pe.1
    · rw [if_pos (by simpa using hf), fsGet_cons, fsGet_cons]
      by_cases hk : pe.1 = k
      · subst hk
        simp [hf]
      · rw [if_neg hk, ih]
        by_cases hfk : f k
        · rw [if_pos hfk, if_pos hfk, if_neg hk]
        · rw [if_neg hfk, if_neg hfk]
    · rw [if_neg (by simpa using hf), ih, fsGet_cons]
      by_cases hk : pe.1 = k
      · subst hk
        simp only [Bool.not_eq_true] at hf
        simp [hf]
      · rw [if_neg hk]

theorem fsGet_removeSubtree (fs : Fs) (q k : Path) :
    fsGet (removeSubtree fs q) k = if le q k then none else fsGet fs k := by
  have h := fsGet_filterKey (fun x => !le q x) fs k
  simp only [removeSubtree]
  rw [h]
  by_cases hq : le q k
  · simp [hq]
  · simp only [Bool.not_eq_true] at hq
    simp [hq]

theorem fsGet_fsErase (fs : Fs) (q k : Path) :
    fsGet (fsErase fs q) k = if k = q then none else fsGet fs k := by
  have h := fsGet_filterKey (fun x => !decide (x = q)) fs k
  simp only [fsErase]
  rw [h]
  by_cases hq : k = q
  · simp [hq]
  · simp [hq]

theorem fsGet_append_single (fs : Fs) (q : Path) (e : Entry) (k : Path) :
    fsGet (fs ++ [(q, e)]) k =
      match fsGet fs k with
      | some v => some v
      | none => if k = q then some e else none := by
  induction fs with
  | nil => simp [fsGet_nil, fsGet_cons, eq_comm]
  | cons pe fs ih =>
    rw [List.cons_append, fsGet_cons, fsGet_cons]
    by_cases hk : pe.1 = k
    · simp [hk]
    · rw [if_neg hk, if_neg hk, ih]

theorem fsGet_fsPut (fs : Fs) (q : Path) (e : Entry) (k : Path) :
    fsGet (fsPut fs q e) k = if k = q then some e else fsGet fs k := by
  induction fs with
  | nil => simp [fsPut, fsGet_nil, fsGet_cons, eq_comm]
  | cons pe fs ih =>
    rw [fsPut]
    by_cases hq : pe.1 = q
    · rw [if_pos hq, fsGet_cons, fsGet_cons]
      by_cases hk : k = q
      · simp [hk]
      · rw [if_neg (by simpa [eq_comm] using hk), if_neg hk,
          if_neg (by rw [hq]; simpa [eq_comm] using hk)]
    · rw [if_neg hq, fsGet_cons, fsGet_cons]
      by_cases hk : pe.1 = k
      · subst hk
        rw [if_pos rfl, if_pos rfl, if_neg (by simpa [eq_comm] using hq)]
      · rw [if_neg hk, if_neg hk, ih]

theorem fsGet_mem {fs : Fs} {k : Path} {e : Entry} (h : fsGet fs k = some e) :
    (k, e) ∈ fs := by
  induction fs with
  | nil => simp [fsGet_nil] at h
  | cons pe fs ih =>
    rw [fsGet_cons] at h
    by_cases hk : pe.1 = k
    · rw [if_pos hk] at h
      have : pe = (k, e) := by
        rcases pe with ⟨k0, e0⟩
        simp only [Option.some.injEq] at h
        simp only at hk h
        rw [hk, h]
      rw [← this]
      exact List.mem_cons_self pe fs
    · rw [if_neg hk] at h
      exact List.mem_cons_of_mem _ (ih h)

theorem fsGet_isSome_of_mem {fs : Fs} {pe : Path × Entry} (h : pe ∈ fs) :
    (fsGet fs pe.1).isSome = true := by
  induction fs with
  | nil => simp at h
  | cons x fs ih =>
    rw [fsGet_cons]
    rcases List.mem_cons.mp h with rfl | h2
    · simp
    · by_cases hk : x.1 = pe.1
      · simp [hk]
      · rw [if_neg hk]
        exact ih h2

theorem fsGet_eq_none_iff {fs : Fs} {k : Path} :
    fsGet fs k = none ↔ ∀ pe ∈ fs, pe.1 ≠ k := by
  constructor
  · intro h pe hpe hk
    have h2 := fsGet_isSome_of_mem hpe
    rw [hk, h] at h2
    simp at h2
  · intro h
    induction fs with
    | nil => rfl
    | cons pe fs ih =>
      rw [fsGet_cons, if_neg (h pe (List.mem_cons_self pe fs))]
      exact ih (fun x hx => h x (List.mem_cons_of_mem _ hx))

/-! ## Lemmas: `listdir` -/

theorem childName_eq_some {p k : Path} {n : String} :
    childName p k = some n ↔ k = p ++ [n] := by
  constructor
  · intro h
    unfold childName at h
    rcases hr : prefixRest p k with _ | r
    · rw [hr] at h
      simp at h
    · rw [hr] at h
      match r, h with
      | [m], h =>
        simp at h
        subst h
        exact prefixRest_eq_some hr
  · rintro rfl
    unfold childName
    rw [prefixRest_append]

theorem mem_listdir {fs : Fs} {p : Path} {n : String} :
    n ∈ listdir fs p ↔ ∃ e, (p ++ [n], e) ∈ fs := by
  simp only [listdir, List.mem_filterMap]
  constructor
  · rintro ⟨⟨k0, e0⟩, hpe, hc⟩
    have hk : k0 = p ++ [n] := childName_eq_some.mp hc
    subst hk
    exact ⟨e0, hpe⟩
  · rintro ⟨e, he⟩
    exact ⟨(p ++ [n], e), he, childName_eq_some.mpr rfl⟩

theorem listdir_eq_nil_iff {fs : Fs} {p : Path} :
    listdir fs p = [] ↔ ∀ pe ∈ fs, childName p pe.1 = none := by
  simp only [listdir, List.filterMap_eq_nil_iff]

theorem listdir_filter_of {fs : Fs} {pred : Path × Entry → Bool} {p : Path}
    (h : ∀ pe ∈ fs, pred pe = false → childName p pe.1 = none) :
    listdir (fs.filter pred) p = listdir fs p := by
  induction fs with
  | nil => rfl
  | cons pe fs ih =>
    have ih2 := ih (fun x hx => h x (List.mem_cons_of_mem _ hx))
    simp only [listdir] at ih2 ⊢
    rw [List.filter_cons]
    by_cases hp : pred pe = true
    · rw [if_pos hp, List.filterMap_cons, List.filterMap_cons]
      rcases hc : childName p pe.1 with _ | n
      · simpa [hc] using ih2
      · simp [hc, ih2]
    · have hc := h pe (List.mem_cons_self pe fs) (by simpa using hp)
      rw [if_neg hp]
      simp only [List.filterMap_cons, hc]
      exact ih2

theorem listdir_append (fs l : Fs) (p : Path) :
    listdir (fs ++ l) p = listdir fs p ++ listdir l p := by
  simp [listdir, List.filterMap_append]

theorem listdir_nodup {fs : Fs} (h : (fs.map Prod.fst).Nodup) (p : Path) :
    (listdir fs p).Nodup := by
  induction fs with
  | nil => simp [listdir]
  | cons pe fs ih =>
    simp only [List.map_cons, List.nodup_cons] at h
    have ih2 := ih h.2
    simp only [listdir, List.filterMap_cons]
    rcases hc : childName p pe.1 with _ | n
    · exact ih2
    · refine List.nodup_cons.mpr ⟨?_, ih2⟩
      intro hmem
      rcases mem_listdir.mp hmem with ⟨e, he⟩
      have hk : pe.1 = p ++ [n] := childName_eq_some.mp hc
      have hmap : p ++ [n] ∈ fs.map Prod.fst :=
        List.mem_map.mpr ⟨(p ++ [n], e), he, rfl⟩
      exact h.1 (hk ▸ hmap)

/-! ## Well-formed stores -/

/-- A store is well formed when no location is bound twice and the parent of
every bound non-root location is a bound directory — the shape every real
directory tree has. -/
def wf (fs : Fs) : Prop :=
  (fs.map Prod.fst).Nodup ∧
    ∀ pe ∈ fs, pe.1 ≠ [] → fsGet fs pe.1.dropLast = some Entry.dir

theorem le_dropLast_self {p : Path} (h : p ≠ []) : le p.dropLast p = true := by
  refine le_iff.mpr ⟨[p.getLast h], ?_⟩
  rw [List.dropLast_append_getLast h]

theorem wf_prefix_dir {fs : Fs} (hwf : wf fs) :
    ∀ k, (fsGet fs k).isSome = true →
      ∀ q, le q k = true → q ≠ k → fsGet fs q = some Entry.dir := by
  suffices main : ∀ L k, k.length = L → (fsGet fs k).isSome = true →
      ∀ q, le q k = true → q ≠ k → fsGet fs q = some Entry.dir by
    intro k hk q hq hne
    exact main k.length k rfl hk q hq hne
  intro L
  induction L using Nat.strong_induction_on with
  | _ L ih =>
    intro k hL hk q hq hne
    have hkne : k ≠ [] := by
      rintro rfl
      have := le_length hq
      simp at this
      exact hne (by simp [this])
    have hklen : 0 < k.length := List.length_pos.mpr hkne
    rcases Option.isSome_iff_exists.mp hk with ⟨e, he⟩
    have hpar : fsGet fs k.dropLast = some Entry.dir :=
      hwf.2 (k, e) (fsGet_mem he) hkne
    by_cases hq2 : q = k.dropLast
    · rw [hq2]
      exact hpar
    · have hql : le q k.dropLast = true := le_append_one hq hne
      have hlt : k.dropLast.length < L := by
        rw [List.length_dropLast]
        omega
      exact ih k.dropLast.length hlt k.dropLast rfl (by rw [hpar]; rfl) q hql hq2

theorem fsGet_none_of_not_dir {fs : Fs} (hwf : wf fs) {q k : Path}
    (hq : fsGet fs q ≠ some Entry.dir) (hlek : le q k = true) (hne : q ≠ k) :
    fsGet fs k = none := by
  by_contra h
  exact hq (wf_prefix_dir hwf k (Option.ne_none_iff_isSome.mp h) q hlek hne)

theorem wf_filterKey {fs : Fs} (hwf : wf fs) (f : Path → Bool)
    (hf : ∀ q k, f k = true → le q k = true → f q = true) :
    wf (fs.filter (fun pe => f pe.1)) := by
  constructor
  · exact ((List.filter_sublist fs).map Prod.fst).nodup hwf.1
  · intro pe hpe hne
    rcases List.mem_filter.mp hpe with ⟨hmem, hcond⟩
    rw [fsGet_filterKey]
    have hconds : f pe.1 = true := by simpa using hcond
    have hdl : f pe.1.dropLast = true :=
      hf _ _ hconds (le_dropLast_self hne)
    rw [if_pos hdl]
    exact hwf.2 pe hmem hne

theorem wf_removeSubtree {fs : Fs} (hwf : wf fs) (p : Path) :
    wf (removeSubtree fs p) := by
  rw [removeSubtree]
  refine wf_filterKey hwf (fun k => !le p k) ?_
  intro q k hk hq
  simp only [Bool.not_eq_true] at hk ⊢
  by_contra hne
  have hpq : le p q = true := by simpa using hne
  rw [le_trans hpq hq] at hk
  cases hk

theorem wf_append_entry {fs : Fs} (hwf : wf fs) {p : Path} (e : Entry)
    (hnone : fsGet fs p = none) (hne : p ≠ [])
    (hpar : fsGet fs p.dropLast = some Entry.dir) : wf (fs ++ [(p, e)]) := by
  constructor
  · rw [List.map_append]
    refine List.Nodup.append hwf.1 (by simp) ?_
    intro x hx hx2
    simp only [List.map_cons, List.map_nil, List.mem_singleton] at hx2
    subst hx2
    rcases List.mem_map.mp hx with ⟨pe, hpe, hfst⟩
    exact (fsGet_eq_none_iff.mp hnone pe hpe) hfst
  · intro pe hpe hne2
    rw [fsGet_append_single]
    rcases List.mem_append.mp hpe with hmem | hmem
    · rw [hwf.2 pe hmem hne2]
    · simp only [List.mem_singleton] at hmem
      subst hmem
      rw [hpar]

theorem fsPut_of_none {fs : Fs} {p : Path} (h : fsGet fs p = none) (e : Entry) :
    fsPut fs p e = fs ++ [(p, e)] := by
  induction fs with
  | nil => rfl
  | cons pe fs ih =>
    rw [fsGet_cons] at h
    by_cases hk : pe.1 = p
    · rw [if_pos hk] at h
      cases h
    · rw [if_neg hk] at h
      rw [fsPut, if_neg hk, List.cons_append, ih h]

theorem mem_fsPut {fs : Fs} {p : Path} {e : Entry} {pe : Path × Entry}
    (h : pe ∈ fsPut fs p e) : pe = (p, e) ∨ pe ∈ fs := by
  induction fs with
  | nil => simpa [fsPut] using h
  | cons x fs ih =>
    rw [fsPut] at h
    by_cases hk : x.1 = p
    · rw [if_pos hk] at h
      rcases List.mem_cons.mp h with rfl | h2
      · exact Or.inl rfl
      · exact Or.inr (List.mem_cons_of_mem _ h2)
    · rw [if_neg hk] at h
      rcases List.mem_cons.mp h with rfl | h2
      · exact Or.inr (List.mem_cons_self _ _)
      · rcases ih h2 with h3 | h3
        · exact Or.inl h3
        · exact Or.inr (List.mem_cons_of_mem _ h3)

theorem map_fst_fsPut_of_isSome {fs : Fs} {p : Path} (e : Entry)
    (h : (fsGet fs p).isSome = true) :
    (fsPut fs p e).map Prod.fst = fs.map Prod.fst := by
  induction fs with
  | nil => simp [fsGet_nil] at h
  | cons x fs ih =>
    rw [fsGet_cons] at h
    rw [fsPut]
    by_cases hk : x.1 = p
    · rw [if_pos hk]
      simp [hk]
    · rw [if_neg hk] at h ⊢
      simp [ih h]

theorem wf_fsPut_replace_file {fs : Fs} (hwf : wf fs) {p : Path} {c0 c : String}
    (h : fsGet fs p = some (Entry.file c0)) : wf (fsPut fs p (Entry.file c)) := by
  constructor
  · rw [map_fst_fsPut_of_isSome _ (by rw [h]; rfl)]
    exact hwf.1
  · intro pe hpe hne
    rw [fsGet_fsPut]
    rcases mem_fsPut hpe with rfl | hmem
    · simp only
      have hdl : ¬ p.dropLast = p := by
        intro hh
        have := congrArg List.length hh
        rw [List.length_dropLast] at this
        have hpos : 0 < p.length := List.length_pos.mpr (by simpa using hne)
        omega
      rw [if_neg hdl]
      exact hwf.2 (p, Entry.file c0) (fsGet_mem h) (by simpa using hne)
    · by_cases hdl : pe.1.dropLast = p
      · have := hwf.2 pe hmem hne
        rw [hdl, h] at this
        cases this
      · rw [if_neg hdl]
        exact hwf.2 pe hmem hne

theorem wf_fsPut_new {fs : Fs} (hwf : wf fs) {p : Path} (e : Entry)
    (hnone : fsGet fs p = none) (hne : p ≠ [])
    (hpar : fsGet fs p.dropLast = some Entry.dir) : wf (fsPut fs p e) := by
  rw [fsPut_of_none hnone]
  exact wf_append_entry hwf e hnone hne hpar

/-! ## Subtree entry counts -/

theorem filter_sublist_of_imp {α : Type} {l : List α} {q r : α → Bool}
    (h : ∀ x ∈ l, q x = true → r x = true) :
    List.Sublist (l.filter q) (l.filter r) := by
  induction l with
  | nil => exact List.Sublist.refl _
  | cons x l ih =>
    have ih2 := ih (fun y hy => h y (List.mem_cons_of_mem _ hy))
    rw [List.filter_cons, List.filter_cons]
    by_cases hq : q x = true
    · rw [if_pos hq, if_pos (h x (List.mem_cons_self _ _) hq)]
      exact ih2.cons₂ x
    · rw [if_neg hq]
      by_cases hr : r x = true
      · rw [if_pos hr]
        exact ih2.cons x
      · rw [if_neg hr]
        exact ih2

theorem filter_length_lt {α : Type} {l : List α} {q r : α → Bool}
    (h : ∀ x ∈ l, q x = true → r x = true) {x0 : α} (hx0 : x0 ∈ l)
    (hr : r x0 = true) (hq : q x0 = false) :
    (l.filter q).length < (l.filter r).length := by
  induction l with
  | nil => simp at hx0
  | cons x l ih =>
    rw [List.filter_cons, List.filter_cons]
    rcases List.mem_cons.mp hx0 with rfl | hx1
    · rw [if_neg (by simp [hq]), if_pos hr]
      have hle := (filter_sublist_of_imp
        (fun y hy => h y (List.mem_cons_of_mem _ hy))).length_le
      simpa using Nat.lt_succ_of_le hle
    · have ih2 := ih (fun y hy => h y (List.mem_cons_of_mem _ hy)) hx1
      by_cases hqx : q x = true
      · rw [if_pos hqx, if_pos (h x (List.mem_cons_self _ _) hqx)]
        simpa using ih2
      · rw [if_neg hqx]
        by_cases hrx : r x = true
        · rw [if_pos hrx]
          exact Nat.lt_succ_of_lt ih2
        · rw [if_neg hrx]
          exact ih2

theorem subCount_child_lt {fs : Fs} {p : Path}
    (h : (fsGet fs p).isSome = true) (n : String) :
    subCount fs (p ++ [n]) < subCount fs p := by
  rcases Option.isSome_iff_exists.mp h with ⟨e, he⟩
  refine filter_length_lt ?_ (fsGet_mem he) (le_refl p) ?_
  · intro x _ hx
    exact le_trans (le_append p [n]) hx
  · exact le_child_self p n

theorem subCount_filter_le (fs : Fs) (pred : Path × Entry → Bool) (p : Path) :
    subCount (fs.filter pred) p ≤ subCount fs p := by
  simp only [subCount]
  exact ((List.filter_sublist fs).filter (fun pe => le p pe.1)).length_le

theorem subCount_pos {fs : Fs} {p : Path} (h : (fsGet fs p).isSome = true) :
    0 < subCount fs p := by
  rcases Option.isSome_iff_exists.mp h with ⟨e, he⟩
  have hmem : (p, e) ∈ fs.filter (fun pe => le p pe.1) :=
    List.mem_filter.mpr ⟨fsGet_mem he, by simpa using le_refl p⟩
  exact List.length_pos.mpr (fun hnil => by rw [hnil] at hmem; simp at hmem)

/-! ## Characterisations of the entry-kind tests -/

theorem isdir_iff {fs : Fs} {p : Path} :
    isdir fs p = true ↔ fsGet fs p = some Entry.dir := by
  simp [isdir]

theorem isfile_iff {fs : Fs} {p : Path} :
    isfile fs p = true ↔ ∃ c, fsGet fs p = some (Entry.file c) := by
  rw [isfile]
  rcases h : fsGet fs p with _ | e
  · simp
  · cases e <;> simp

theorem fsExists_iff {fs : Fs} {p : Path} :
    fsExists fs p = true ↔ ∃ e, fsGet fs p = some e := by
  rw [fsExists]
  rcases h : fsGet fs p with _ | e <;> simp

theorem isdir_isSome {fs : Fs} {p : Path} (h : isdir fs p = true) :
    (fsGet fs p).isSome = true := by
  rw [isdir_iff.mp h]
  rfl

/-! ## Correctness of `delete` -/

theorem foldE_nil (f : Fs → String → Except Err Fs) (fs : Fs) :
    foldE f fs [] = .ok fs := rfl

theorem foldE_cons (f : Fs → String → Except Err Fs) (fs : Fs) (n : String)
    (ns : List String) :
    foldE f fs (n :: ns) =
      match f fs n with
      | .error e => .error e
      | .ok fs2 => foldE f fs2 ns := rfl

/-- Iterated subtree removal, the effect of the child loop of `delete`. -/
def iterRemove (p : Path) (fs : Fs) (ns : List String) : Fs :=
  ns.foldl (fun f n => removeSubtree f (p ++ [n])) fs

theorem iterRemove_eq_filter (p : Path) (ns : List String) (fs : Fs) :
    iterRemove p fs ns
      = fs.filter (fun pe => !(ns.any (fun n => le (p ++ [n]) pe.1))) := by
  induction ns generalizing fs with
  | nil =>
    simp only [iterRemove, List.foldl_nil, List.any_nil, Bool.not_false]
    exact (List.filter_true fs).symm
  | cons n ns ih =>
    have h1 : iterRemove p fs (n :: ns)
        = iterRemove p (removeSubtree fs (p ++ [n])) ns := rfl
    rw [h1, ih, removeSubtree, List.filter_filter]
    refine List.filter_congr ?_
    intro pe _
    simp [List.any_cons, Bool.not_or, Bool.and_comm]

theorem foldE_delete_eq (fuel : Nat) (p : Path)
    (IH : ∀ fs q, wf fs → subCount fs q < fuel →
      deleteOp fuel fs q = .ok (removeSubtree fs q)) :
    ∀ (ns : List String) (fs : Fs), wf fs →
      (∀ n ∈ ns, subCount fs (p ++ [n]) < fuel) →
      foldE (fun f n => deleteOp fuel f (p ++ [n])) fs ns
        = .ok (iterRemove p fs ns) := by
  intro ns
  induction ns with
  | nil => intro fs _ _; rfl
  | cons n ns ih =>
    intro fs hwf hb
    rw [foldE_cons, IH fs (p ++ [n]) hwf (hb n (List.mem_cons_self n ns))]
    exact ih (removeSubtree fs (p ++ [n])) (wf_removeSubtree hwf _)
      (fun m hm => lt_of_le_of_lt
        (by simp only [removeSubtree]; exact subCount_filter_le fs _ (p ++ [m]))
        (hb m (List.mem_cons_of_mem _ hm)))

theorem deleteOp_correct :
    ∀ (fuel : Nat) (fs : Fs) (p : Path), wf fs → subCount fs p < fuel →
      deleteOp fuel fs p = .ok (removeSubtree fs p) := by
  intro fuel
  induction fuel with
  | zero => intro fs p _ h; omega
  | succ fuel IH =>
    intro fs p hwf hcount
    rw [deleteOp]
    by_cases hd : isdir fs p = true
    · rw [if_pos hd]
      have hsome := isdir_isSome hd
      have hb : ∀ n ∈ listdir fs p, subCount fs (p ++ [n]) < fuel := by
        intro n _
        have := subCount_child_lt hsome n
        omega
      rw [foldE_delete_eq fuel p (fun fs2 q h1 h2 => IH fs2 q h1 h2)
        (listdir fs p) fs hwf hb]
      simp only
      rw [iterRemove_eq_filter]
      set g : Path × Entry → Bool :=
        fun pe => !((listdir fs p).any (fun n => le (p ++ [n]) pe.1)) with hg
      have hgp : g (p, Entry.dir) = true := by
        rw [hg]
        simp only [Bool.not_eq_true']
        rw [List.any_eq_false]
        intro n _
        simp [le_child_self p n]
      have hget : fsGet (fs.filter g) p = fsGet fs p := by
        have h := fsGet_filterKey (fun k => g (k, Entry.dir)) fs p
        have hsame : fs.filter (fun pe => g (pe.1, Entry.dir)) = fs.filter g := by
          refine List.filter_congr ?_
          intro pe _
          rw [hg]
        rw [hsame] at h
        rw [h, if_pos hgp]
      have hdir2 : isdir (fs.filter g) p = true := by
        rw [isdir_iff, hget]
        exact isdir_iff.mp hd
      have hnil : listdir (fs.filter g) p = [] := by
        rw [listdir_eq_nil_iff]
        rintro ⟨k0, e0⟩ hpe
        rcases hc : childName p k0 with _ | n
        · rfl
        · exfalso
          have hk : k0 = p ++ [n] := childName_eq_some.mp hc
          rcases List.mem_filter.mp hpe with ⟨hmem, hcond⟩
          have hnmem : n ∈ listdir fs p := by
            rw [mem_listdir]
            exact ⟨e0, hk ▸ hmem⟩
          have : ((listdir fs p).any (fun m => le (p ++ [m]) k0)) = true := by
            rw [List.any_eq_true]
            exact ⟨n, hnmem, by rw [hk]; exact le_refl _⟩
          rw [hg] at hcond
          simp only at hcond
          rw [this] at hcond
          cases hcond
      rw [rmdir, if_pos hdir2, if_pos hnil]
      have : fsErase (fs.filter g) p = removeSubtree fs p := by
        rw [fsErase, List.filter_filter, removeSubtree]
        refine List.filter_congr ?_
        intro pe hpe
        by_cases hle : le p pe.1 = true
        · rw [hle]
          by_cases hpp : pe.1 = p
          · simp [hpp, hg]
          · have hr : ((listdir fs p).any (fun n => le (p ++ [n]) pe.1)) = true := by
              rcases le_iff.mp hle with ⟨r, hr2⟩
              rcases r with _ | ⟨n, r2⟩
              · exact absurd (by simpa using hr2) hpp
              · rw [List.any_eq_true]
                refine ⟨n, ?_, ?_⟩
                · rw [mem_listdir]
                  rcases r2 with _ | ⟨m, r3⟩
                  · exact ⟨pe.2, by
                      have : (pe.1, pe.2) ∈ fs := by simpa using hpe
                      simpa [← hr2] using this⟩
                  · have hsome2 : (fsGet fs pe.1).isSome = true :=
                      fsGet_isSome_of_mem hpe
                    have hdir3 : fsGet fs (p ++ [n]) = some Entry.dir := by
                      refine wf_prefix_dir hwf pe.1 hsome2 (p ++ [n]) ?_ ?_
                      · rw [hr2]
                        refine le_iff.mpr ⟨m :: r3, by simp⟩
                      · rw [hr2]
                        intro hcontra
                        have := congrArg List.length hcontra
                        simp at this
                    exact ⟨Entry.dir, fsGet_mem hdir3⟩
                · rw [hr2]
                  exact le_iff.mpr ⟨r2, by simp⟩
            rw [hg]
            simp [hr]
        · simp only [Bool.not_eq_true] at hle
          rw [hle]
          have h1 : ((listdir fs p).any (fun n => le (p ++ [n]) pe.1)) = false := by
            rw [List.any_eq_false]
            intro n _
            by_contra hcon
            have : le (p ++ [n]) pe.1 = true := by simpa using hcon
            rw [le_trans (le_append p [n]) this] at hle
            cases hle
          have h2 : pe.1 ≠ p := by
            rintro rfl
            rw [le_refl] at hle
            cases hle
          rw [hg]
          simp [h1, h2]
      rw [this]
    · rw [if_neg hd]
      by_cases hf : isfile fs p = true
      · rw [if_pos hf, fsRemove, if_pos hf]
        have : fsErase fs p = removeSubtree fs p := by
          rw [fsErase, removeSubtree]
          refine List.filter_congr ?_
          intro pe hpe
          by_cases hpp : pe.1 = p
          · simp [hpp, le_refl]
          · have hle : le p pe.1 = false := by
              by_contra hcon
              have hle2 : le p pe.1 = true := by simpa using hcon
              have hnd : fsGet fs p ≠ some Entry.dir := by
                rcases isfile_iff.mp hf with ⟨c, hc⟩
                rw [hc]
                simp
              have := fsGet_none_of_not_dir hwf hnd hle2 (fun h => hpp h.symm)
              have hs := fsGet_isSome_of_mem hpe
              rw [this] at hs
              cases hs
            simp [hpp, hle]
        rw [this]
      · rw [if_neg hf]
        have : removeSubtree fs p = fs := by
          rw [removeSubtree]
          refine List.filter_eq_self.mpr ?_
          intro pe hpe
          by_cases hpp : pe.1 = p
          · exfalso
            have hs := fsGet_isSome_of_mem hpe
            rw [hpp] at hs
            rcases Option.isSome_iff_exists.mp hs with ⟨e, he⟩
            cases e
            · exact hd (isdir_iff.mpr he)
            · exact hf (isfile_iff.mpr ⟨_, he⟩)
          · by_contra hcon
            have hle : le p pe.1 = true := by
              rcases hle2 : le p pe.1 with _ | _
              · rw [hle2] at hcon
                simp at hcon
              · rfl
            have hnd : fsGet fs p ≠ some Entry.dir := by
              intro hdd
              exact hd (isdir_iff.mpr hdd)
            have := fsGet_none_of_not_dir hwf hnd hle (fun h => hpp h.symm)
            have hs := fsGet_isSome_of_mem hpe
            rw [this] at hs
            cases hs
        rw [this]

/-! ## Helper lemmas for `copy` and `move` -/

theorem removeSubtree_of_none {fs : Fs} (hwf : wf fs) {p : Path}
    (h : fsGet fs p = none) : removeSubtree fs p = fs := by
  rw [removeSubtree]
  refine List.filter_eq_self.mpr ?_
  intro pe hpe
  by_contra hcon
  have hle : le p pe.1 = true := by
    rcases h2 : le p pe.1
    · rw [h2] at hcon
      simp at hcon
    · rfl
  have hne : p ≠ pe.1 := by
    rintro rfl
    rw [fsGet_eq_none_iff] at h
    exact h pe hpe rfl
  have hnd : fsGet fs p ≠ some Entry.dir := by rw [h]; simp
  have hnone := fsGet_none_of_not_dir hwf hnd hle hne
  have hs := fsGet_isSome_of_mem hpe
  rw [hnone] at hs
  cases hs

theorem le_eq_of_length {q k : Path} (h : le q k = true)
    (hl : q.length = k.length) : q = k := by
  rcases le_iff.mp h with ⟨r, rfl⟩
  have : r = [] := by
    rw [List.length_append] at hl
    have := List.length_eq_zero.mp (by omega : r.length = 0)
    exact this
  simp [this]

theorem le_snoc_cases {q s : Path} {n : String} (h : le q (s ++ [n]) = true) :
    le q s = true ∨ q = s ++ [n] := by
  have hl := le_length h
  rw [List.length_append] at hl
  simp only [List.length_singleton] at hl
  by_cases hle : q.length ≤ s.length
  · left
    rcases le_iff.mp h with ⟨r, hr⟩
    have t1 : (s ++ [n]).take q.length = q := by
      rw [hr]
      exact List.take_left q r
    have t2 : (s ++ [n]).take q.length = s.take q.length := by
      rw [List.take_append_of_le_length hle]
    have hq : s.take q.length = q := t2.symm.trans t1
    have hsplit := List.take_append_drop q.length s
    rw [hq] at hsplit
    exact le_iff.mpr ⟨_, hsplit.symm⟩
  · right
    refine le_eq_of_length h ?_
    rw [List.length_append]
    simp only [List.length_singleton]
    omega

theorem le_dropLast_false {p : Path} (h : p ≠ []) :
    le p p.dropLast = false := by
  by_contra hcon
  have hle : le p p.dropLast = true := by simpa using hcon
  have := le_length hle
  rw [List.length_dropLast] at this
  have hpos : 0 < p.length := List.length_pos.mpr h
  omega

theorem le_disjoint {a b k : Path} (h1 : le a b = false) (h2 : le b a = false)
    (ha : le a k = true) : le b k = false := by
  rcases hb : le b k
  · rfl
  · rcases le_comparable ha hb with h | h
    · rw [h] at h1
      cases h1
    · rw [h] at h2
      cases h2

theorem le_snoc_ne {src dst : Path} {n : String} (h1 : le src dst = false)
    (h2 : le dst src = false) : le (src ++ [n]) (dst ++ [n]) = false := by
  rcases h : le (src ++ [n]) (dst ++ [n])
  · rfl
  · exfalso
    rcases le_snoc_cases h with h3 | h3
    · have : le src dst = true :=
        le_trans (le_append src [n]) h3
      rw [this] at h1
      cases h1
    · have : src = dst := List.append_cancel_right h3
      subst this
      rw [le_refl] at h1
      cases h1

theorem prefixRest_eq_none_iff {p k : Path} :
    prefixRest p k = none ↔ le p k = false := by
  rw [le]
  rcases h : prefixRest p k <;> simp

theorem filter_subframe {fs2 fs : Fs} {P Q : Path → Bool}
    (himp : ∀ k, Q k = true → P k = true)
    (h : fs2.filter (fun pe => P pe.1) = fs.filter (fun pe => P pe.1)) :
    fs2.filter (fun pe => Q pe.1) = fs.filter (fun pe => Q pe.1) := by
  have e2 : ∀ l : Fs, l.filter (fun pe => Q pe.1)
      = (l.filter (fun pe => P pe.1)).filter (fun pe => Q pe.1) := by
    intro l
    rw [List.filter_filter]
    refine (List.filter_congr ?_).symm
    intro pe _
    rcases hq : Q pe.1
    · simp
    · simp [himp pe.1 hq]
  rw [e2 fs2, h, ← e2 fs]

theorem listdir_eq_of_region {fs2 fs : Fs} {q : Path}
    (h : fs2.filter (fun pe => le q pe.1) = fs.filter (fun pe => le q pe.1)) :
    listdir fs2 q = listdir fs q := by
  have haux : ∀ l : Fs, listdir (l.filter (fun pe => le q pe.1)) q = listdir l q := by
    intro l
    refine listdir_filter_of ?_
    intro pe _ hfalse
    rcases hc : childName q pe.1 with _ | n
    · rfl
    · exfalso
      have hk := childName_eq_some.mp hc
      rw [hk, le_append] at hfalse
      cases hfalse
  rw [← haux fs2, h, haux fs]

theorem subCount_eq_of_region {fs2 fs : Fs} {q : Path}
    (h : fs2.filter (fun pe => le q pe.1) = fs.filter (fun pe => le q pe.1)) :
    subCount fs2 q = subCount fs q := by
  simp only [subCount, h]

theorem filter_fsPut_key_false {fs : Fs} {q : Path} {e : Entry}
    {g : Path → Bool} (hg : g q = false) :
    (fsPut fs q e).filter (fun pe => g pe.1) = fs.filter (fun pe => g pe.1) := by
  induction fs with
  | nil => simp [fsPut, List.filter_cons, hg]
  | cons x fs ih =>
    rw [fsPut]
    by_cases hk : x.1 = q
    · rw [if_pos hk, List.filter_cons, List.filter_cons]
      simp only [hg]
      rw [hk, hg]
      rfl
    · rw [if_neg hk, List.filter_cons, List.filter_cons, ih]

theorem filter_region_nil {fs : Fs} {q : Path}
    (h : ∀ k, le q k = true → fsGet fs k = none) :
    fs.filter (fun pe => le q pe.1) = [] := by
  rw [List.filter_eq_nil]
  intro pe hpe hle
  have hs := fsGet_isSome_of_mem hpe
  rw [h pe.1 hle] at hs
  cases hs

theorem mkdir_eq_ok {fs : Fs} {p : Path} (hnone : fsGet fs p = none)
    (hne : p ≠ []) (hpar : isdir fs p.dropLast = true) :
    mkdir fs p = .ok (fs ++ [(p, Entry.dir)]) := by
  unfold mkdir
  have hex : fsExists fs p = false := by
    rw [fsExists, hnone]
    rfl
  rw [hex]
  simp only [Bool.false_eq_true, if_false]
  cases p with
  | nil => exact absurd rfl hne
  | cons a p => rw [if_pos hpar]

/-! ## Correctness of `copy` -/

theorem prefixRest_self (p : Path) : prefixRest p p = some [] := by
  have h := prefixRest_append p []
  simpa using h

/-- Intended final lookup function after a deep copy of `src` to `dst`. -/
def copyResultGet (fs : Fs) (src dst k : Path) : Option Entry :=
  match prefixRest dst k with
  | some rest => fsGet fs (src ++ rest)
  | none => fsGet fs k

/-- Lookup function while the children `done` have been copied so far. -/
def copySpecGet (fs : Fs) (src dst : Path) (done : List String) (k : Path) :
    Option Entry :=
  match prefixRest dst k with
  | some [] => some Entry.dir
  | some (n :: rest) => if n ∈ done then fsGet fs (src ++ n :: rest) else none
  | none => fsGet fs k

/-- Preconditions of the deep-copy correctness lemma. -/
def CopyHyp (fuel : Nat) (fs : Fs) (src dst : Path) (depth : Int) : Prop :=
  wf fs ∧ (fsGet fs src).isSome = true ∧ depth < 0 ∧
  le src dst = false ∧ le dst src = false ∧ dst ≠ [] ∧
  isdir fs dst.dropLast = true ∧ isdir fs dst = false ∧
  subCount fs src + subCount fs dst + 1 < fuel

/-- Postcondition of the deep-copy correctness lemma: the run succeeds, the
destination subtree mirrors the source subtree, and everything outside the
destination subtree is untouched. -/
def CopyConcl (fs : Fs) (src dst : Path) (r : Except Err Fs) : Prop :=
  ∃ fs2, r = .ok fs2 ∧ wf fs2 ∧ (∀ k, fsGet fs2 k = copyResultGet fs src dst k) ∧
    fs2.filter (fun pe => !le dst pe.1) = fs.filter (fun pe => !le dst pe.1)

theorem copyResultGet_of_none {fs : Fs} {src dst k : Path}
    (h : prefixRest dst k = none) : copyResultGet fs src dst k = fsGet fs k := by
  unfold copyResultGet
  rw [h]

theorem copyResultGet_of_some {fs : Fs} {src dst k rest : Path}
    (h : prefixRest dst k = some rest) :
    copyResultGet fs src dst k = fsGet fs (src ++ rest) := by
  unfold copyResultGet
  rw [h]

theorem copySpecGet_of_none {fs : Fs} {src dst k : Path} {done : List String}
    (h : prefixRest dst k = none) :
    copySpecGet fs src dst done k = fsGet fs k := by
  unfold copySpecGet
  rw [h]

theorem copySpecGet_of_nil {fs : Fs} {src dst k : Path} {done : List String}
    (h : prefixRest dst k = some []) :
    copySpecGet fs src dst done k = some Entry.dir := by
  unfold copySpecGet
  rw [h]

theorem copySpecGet_of_cons {fs : Fs} {src dst k : Path} {done : List String}
    {n : String} {rest : Path} (h : prefixRest dst k = some (n :: rest)) :
    copySpecGet fs src dst done k
      = if n ∈ done then fsGet fs (src ++ n :: rest) else none := by
  unfold copySpecGet
  rw [h]

theorem copySpec_to_result {fs : Fs} {src dst : Path} (hwf : wf fs)
    (hs : fsGet fs src = some Entry.dir) (k : Path) :
    copySpecGet fs src dst (listdir fs src) k = copyResultGet fs src dst k := by
  rcases h : prefixRest dst k with _ | rest
  · rw [copySpecGet_of_none h, copyResultGet_of_none h]
  · rcases rest with _ | ⟨n, r⟩
    · rw [copySpecGet_of_nil h, copyResultGet_of_some h, List.append_nil, hs]
    · rw [copySpecGet_of_cons h, copyResultGet_of_some h]
      by_cases hn : n ∈ listdir fs src
      · rw [if_pos hn]
      · rw [if_neg hn]
        have h1 : fsGet fs (src ++ [n]) = none := by
          rw [fsGet_eq_none_iff]
          rintro ⟨k0, e0⟩ hpe hk
          simp only at hk
          subst hk
          exact hn (mem_listdir.mpr ⟨e0, hpe⟩)
        rcases r with _ | ⟨m, r2⟩
        · rw [← h1]
        · have h2 : fsGet fs (src ++ n :: m :: r2) = none := by
            refine fsGet_none_of_not_dir hwf (q := src ++ [n]) ?_ ?_ ?_
            · rw [h1]
              simp
            · refine le_iff.mpr ⟨m :: r2, by simp⟩
            · intro hcontra
              have := congrArg List.length hcontra
              simp at this
          rw [h2]

theorem copy_child_dst_none {fs : Fs} {src dst : Path} {done : List String}
    {g : Fs} (hinv : ∀ k, fsGet g k = copySpecGet fs src dst done k)
    {n : String} (hnd : n ∉ done) :
    ∀ k, le (dst ++ [n]) k = true → fsGet g k = none := by
  intro k hk
  rcases le_iff.mp hk with ⟨r, rfl⟩
  have h1 : prefixRest dst (dst ++ [n] ++ r) = some (n :: r) := by
    rw [List.append_assoc, List.singleton_append]
    exact prefixRest_append dst (n :: r)
  rw [hinv, copySpecGet_of_cons h1, if_neg hnd]

theorem foldE_copy_inv (F : Nat) (fs : Fs) (src dst : Path) (depth : Int)
    (IH : ∀ fs2 src2 dst2 depth2, CopyHyp F fs2 src2 dst2 depth2 →
      CopyConcl fs2 src2 dst2 (copyOp F fs2 src2 dst2 depth2))
    (hwf : wf fs) (hs : fsGet fs src = some Entry.dir)
    (hsd : le src dst = false) (hds : le dst src = false)
    (hdepth : depth < 0)
    (harith : subCount fs src + subCount fs dst + 1 < F + 1) :
    ∀ (ns done : List String) (g : Fs), listdir fs src = done ++ ns →
      wf g →
      (∀ k, fsGet g k = copySpecGet fs src dst done k) →
      g.filter (fun pe => !le dst pe.1) = fs.filter (fun pe => !le dst pe.1) →
      ∃ g2, foldE (fun f n => copyOp F f (src ++ [n]) (dst ++ [n]) (depth - 1))
          g ns = .ok g2 ∧
        wf g2 ∧ (∀ k, fsGet g2 k = copySpecGet fs src dst (done ++ ns) k) ∧
        g2.filter (fun pe => !le dst pe.1) = fs.filter (fun pe => !le dst pe.1) := by
  intro ns
  induction ns with
  | nil =>
    intro done g hlist hwfg hinv hframe
    exact ⟨g, rfl, hwfg, by simpa using hinv, hframe⟩
  | cons n ns ih =>
    intro done g hlist hwfg hinv hframe
    have hnames_nodup : (listdir fs src).Nodup := listdir_nodup hwf.1 src
    have hn_mem : n ∈ listdir fs src := by
      rw [hlist]
      exact List.mem_append_right done (List.mem_cons_self n ns)
    have hn_not_done : n ∉ done := by
      intro hmem
      rw [hlist] at hnames_nodup
      exact (List.nodup_append.mp hnames_nodup).2.2 hmem (List.mem_cons_self n ns)
    have hsrcn : (fsGet fs (src ++ [n])).isSome = true := by
      rcases mem_listdir.mp hn_mem with ⟨e, he⟩
      simpa using fsGet_isSome_of_mem he
    have hsd2 : le (src ++ [n]) (dst ++ [n]) = false := le_snoc_ne hsd hds
    have hds2 : le (dst ++ [n]) (src ++ [n]) = false := le_snoc_ne hds hsd
    have hreg_src : ∀ q, le src q = true →
        g.filter (fun pe => le q pe.1) = fs.filter (fun pe => le q pe.1) := by
      intro q hq
      refine filter_subframe (P := fun k => !le dst k) ?_ hframe
      intro k hk
      have h1 : le src k = true := le_trans hq hk
      have h2 := le_disjoint hsd hds h1
      simp [h2]
    have hnd_srcn : le dst (src ++ [n]) = false :=
      le_disjoint hsd hds (le_append src [n])
    have hgsrcn : fsGet g (src ++ [n]) = fsGet fs (src ++ [n]) := by
      rw [hinv, copySpecGet_of_none (prefixRest_eq_none_iff.mpr hnd_srcn)]
    have hgdst : fsGet g dst = some Entry.dir := by
      rw [hinv, copySpecGet_of_nil (prefixRest_self dst)]
    have hgdstn : fsGet g (dst ++ [n]) = none := by
      rw [hinv, copySpecGet_of_cons (prefixRest_append dst [n]),
        if_neg hn_not_done]
    have hcount_srcn : subCount g (src ++ [n]) = subCount fs (src ++ [n]) :=
      subCount_eq_of_region (hreg_src (src ++ [n]) (le_append src [n]))
    have hcount_dstn : subCount g (dst ++ [n]) = 0 := by
      rw [subCount, filter_region_nil (copy_child_dst_none hinv hn_not_done)]
      rfl
    have hchild : CopyHyp F g (src ++ [n]) (dst ++ [n]) (depth - 1) := by
      refine ⟨hwfg, ?_, by omega, hsd2, hds2, by simp, ?_, ?_, ?_⟩
      · rw [hgsrcn]
        exact hsrcn
      · rw [List.dropLast_concat]
        exact isdir_iff.mpr hgdst
      · rw [isdir, hgdstn]
        rfl
      · have hlt : subCount fs (src ++ [n]) < subCount fs src :=
          subCount_child_lt (by rw [hs]; rfl) n
        omega
    obtain ⟨g2, hrun, hwf2, hget2, hframe2⟩ :=
      IH g (src ++ [n]) (dst ++ [n]) (depth - 1) hchild
    have hinv2 : ∀ k, fsGet g2 k = copySpecGet fs src dst (done ++ [n]) k := by
      intro k
      rw [hget2 k]
      rcases hp : prefixRest dst k with _ | rest
      · have hle : le dst k = false := prefixRest_eq_none_iff.mp hp
        have h1 : prefixRest (dst ++ [n]) k = none := by
          refine prefixRest_eq_none_iff.mpr ?_
          rcases h2 : le (dst ++ [n]) k
          · rfl
          · rw [le_trans (le_append dst [n]) h2] at hle
            cases hle
        rw [copyResultGet_of_none h1, hinv k, copySpecGet_of_none hp,
          copySpecGet_of_none hp]
      · rcases rest with _ | ⟨m, r⟩
        · have hk : k = dst := by simpa using prefixRest_eq_some hp
          have h1 : prefixRest (dst ++ [n]) k = none := by
            refine prefixRest_eq_none_iff.mpr ?_
            rw [hk]
            exact le_child_self dst n
          rw [copyResultGet_of_none h1, hinv k, copySpecGet_of_nil hp,
            copySpecGet_of_nil hp]
        · have hk : k = dst ++ m :: r := prefixRest_eq_some hp
          by_cases hmn : m = n
          · subst hmn
            have h1 : prefixRest (dst ++ [m]) k = some r := by
              rw [hk]
              have hsplit : dst ++ m :: r = (dst ++ [m]) ++ r := by simp
              rw [hsplit]
              exact prefixRest_append (dst ++ [m]) r
            rw [copyResultGet_of_some h1]
            have h3 : le dst (src ++ [m] ++ r) = false := by
              refine le_disjoint hsd hds ?_
              rw [List.append_assoc]
              exact le_append src ([m] ++ r)
            rw [hinv, copySpecGet_of_none (prefixRest_eq_none_iff.mpr h3),
              copySpecGet_of_cons hp,
              if_pos (List.mem_append_right done (List.mem_cons_self m [])),
              List.append_assoc, List.singleton_append]
          · have h1 : prefixRest (dst ++ [n]) k = none := by
              refine prefixRest_eq_none_iff.mpr ?_
              rcases h2 : le (dst ++ [n]) k
              · rfl
              · exfalso
                rcases le_iff.mp h2 with ⟨r2, hr2⟩
                rw [hk] at hr2
                rw [List.append_assoc, List.singleton_append] at hr2
                have := List.append_cancel_left hr2
                simp only [List.cons.injEq] at this
                exact hmn this.1
            rw [copyResultGet_of_none h1, hinv k, copySpecGet_of_cons hp,
              copySpecGet_of_cons hp]
            have hmm : (m ∈ done ++ [n]) ↔ (m ∈ done) := by
              rw [List.mem_append]
              simp [hmn]
            by_cases hm : m ∈ done
            · rw [if_pos hm, if_pos (hmm.mpr hm)]
            · rw [if_neg hm, if_neg (fun h => hm (hmm.mp h))]
    have hframe3 : g2.filter (fun pe => !le dst pe.1)
        = fs.filter (fun pe => !le dst pe.1) := by
      have h1 : g2.filter (fun pe => !le dst pe.1)
          = g.filter (fun pe => !le dst pe.1) := by
        refine filter_subframe (P := fun k => !le (dst ++ [n]) k)
          (Q := fun k => !le dst k) ?_ hframe2
        intro k hk
        simp only [Bool.not_eq_true'] at hk ⊢
        rcases h2 : le (dst ++ [n]) k
        · rfl
        · rw [le_trans (le_append dst [n]) h2] at hk
          cases hk
      rw [h1, hframe]
    have hlist2 : listdir fs src = (done ++ [n]) ++ ns := by
      rw [hlist, List.append_assoc, List.singleton_append]
    obtain ⟨g3, hrun3, hwf3, hget3, hframe4⟩ :=
      ih (done ++ [n]) g2 hlist2 hwf2 hinv2 hframe3
    refine ⟨g3, ?_, hwf3, ?_, hframe4⟩
    · rw [foldE_cons, hrun]
      exact hrun3
    · intro k
      rw [hget3 k]
      rw [List.append_assoc, List.singleton_append]

theorem copyOp_master :
    ∀ (fuel : Nat) (fs : Fs) (src dst : Path) (depth : Int),
      CopyHyp fuel fs src dst depth →
      CopyConcl fs src dst (copyOp fuel fs src dst depth) := by
  intro fuel
  induction fuel with
  | zero =>
    rintro fs src dst depth ⟨_, _, _, _, _, _, _, _, harith⟩
    omega
  | succ F IH =>
    rintro fs src dst depth ⟨hwf, hsome, hdep, hsd, hds, hdne, hdpar, hddir, harith⟩
    have hcsrc : 0 < subCount fs src := subCount_pos hsome
    rw [copyOp]
    by_cases hsrcdir : isdir fs src = true
    · rw [if_pos hsrcdir]
      have hs : fsGet fs src = some Entry.dir := isdir_iff.mp hsrcdir
      have hfs1 : ∃ fs1,
          (if isfile fs dst = true then deleteOp F fs dst else .ok fs) = .ok fs1 ∧
          wf fs1 ∧
          (∀ k, fsGet fs1 k = if le dst k = true then none else fsGet fs k) ∧
          fs1.filter (fun pe => !le dst pe.1) = fs.filter (fun pe => !le dst pe.1) := by
        by_cases hf : isfile fs dst = true
        · rw [if_pos hf]
          refine ⟨removeSubtree fs dst,
            deleteOp_correct F fs dst hwf (by omega),
            wf_removeSubtree hwf dst, ?_, ?_⟩
          · intro k
            rw [fsGet_removeSubtree]
          · rw [removeSubtree, List.filter_filter]
            refine List.filter_congr ?_
            intro pe _
            rcases h : le dst pe.1 <;> simp [h]
        · rw [if_neg hf]
          have hnone : fsGet fs dst = none := by
            rcases h : fsGet fs dst with _ | e
            · rfl
            · exfalso
              cases e
              · rw [isdir_iff.mpr h] at hddir
                cases hddir
              · exact hf (isfile_iff.mpr ⟨_, h⟩)
          refine ⟨fs, rfl, hwf, ?_, rfl⟩
          intro k
          by_cases hle : le dst k = true
          · rw [if_pos hle]
            by_cases hk : k = dst
            · rw [hk, hnone]
            · exact fsGet_none_of_not_dir hwf (by rw [hnone]; simp) hle
                (fun h => hk h.symm)
          · rw [if_neg hle]
      obtain ⟨fs1, hrun1, hwf1, hget1, hframe1⟩ := hfs1
      rw [hrun1]
      simp only
      have hdstnone1 : fsGet fs1 dst = none := by
        rw [hget1 dst, if_pos (le_refl dst)]
      have hdir1 : isdir fs1 dst = false := by
        rw [isdir, hdstnone1]
        rfl
      rw [hdir1]
      simp only [Bool.false_eq_true, if_false]
      have hpar1 : isdir fs1 dst.dropLast = true := by
        rw [isdir_iff, hget1, if_neg (by rw [le_dropLast_false hdne]; simp)]
        exact isdir_iff.mp hdpar
      rw [mkdir_eq_ok hdstnone1 hdne hpar1]
      simp only
      have hdep0 : depth ≠ 0 := by omega
      rw [if_pos hdep0]
      have hwf2 : wf (fs1 ++ [(dst, Entry.dir)]) :=
        wf_append_entry hwf1 _ hdstnone1 hdne (isdir_iff.mp hpar1)
      have hframe2 : (fs1 ++ [(dst, Entry.dir)]).filter (fun pe => !le dst pe.1)
          = fs.filter (fun pe => !le dst pe.1) := by
        rw [List.filter_append, ← hframe1]
        have h1 : ([((dst : Path), Entry.dir)]).filter (fun pe => !le dst pe.1)
            = [] := by
          simp [le_refl]
        rw [h1, List.append_nil]
      have hreg2_src : (fs1 ++ [(dst, Entry.dir)]).filter (fun pe => le src pe.1)
          = fs.filter (fun pe => le src pe.1) := by
        refine filter_subframe (P := fun k => !le dst k)
          (Q := fun k => le src k) ?_ hframe2
        intro k hk
        have h2 := le_disjoint hsd hds hk
        simp [h2]
      have hlist2 : listdir (fs1 ++ [(dst, Entry.dir)]) src = listdir fs src :=
        listdir_eq_of_region hreg2_src
      rw [hlist2]
      have hget2 : ∀ k, fsGet (fs1 ++ [(dst, Entry.dir)]) k
          = copySpecGet fs src dst [] k := by
        intro k
        rw [fsGet_append_single, hget1 k]
        rcases hp : prefixRest dst k with _ | rest
        · have hle : le dst k = false := prefixRest_eq_none_iff.mp hp
          have hk : k ≠ dst := by
            rintro rfl
            rw [le_refl] at hle
            cases hle
          rw [copySpecGet_of_none hp, if_neg (by rw [hle]; simp)]
          rcases h2 : fsGet fs k with _ | v
          · simp only
            rw [if_neg hk]
          · rfl
        · rcases rest with _ | ⟨n, r⟩
          · have hk : k = dst := by simpa using prefixRest_eq_some hp
            rw [copySpecGet_of_nil hp, if_pos (by rw [hk]; exact le_refl dst)]
            simp only
            rw [if_pos hk]
          · have hk : k = dst ++ n :: r := prefixRest_eq_some hp
            have hkne : k ≠ dst := by
              rw [hk]
              intro hcontra
              have := congrArg List.length hcontra
              simp at this
            have hle : le dst k = true := by
              rw [hk]
              exact le_iff.mpr ⟨n :: r, rfl⟩
            rw [copySpecGet_of_cons hp, if_pos hle]
            simp only
            rw [if_neg hkne, if_neg (List.not_mem_nil n)]
      obtain ⟨g2, hrun3, hwf3, hget3, hframe3⟩ :=
        foldE_copy_inv F fs src dst depth IH hwf hs hsd hds hdep harith
          (listdir fs src) [] (fs1 ++ [(dst, Entry.dir)]) (by simp) hwf2 hget2
          hframe2
      rw [hrun3]
      refine ⟨g2, rfl, hwf3, ?_, hframe3⟩
      intro k
      rw [hget3 k]
      have h := @copySpec_to_result fs src dst hwf hs k
      simpa using h
    · rw [if_neg hsrcdir]
      rcases Option.isSome_iff_exists.mp hsome with ⟨e, he⟩
      have hc : ∃ c, fsGet fs src = some (Entry.file c) := by
        cases e
        · exact absurd (isdir_iff.mpr he) hsrcdir
        · exact ⟨_, he⟩
      obtain ⟨c, hc⟩ := hc
      rw [hddir]
      simp only [Bool.false_eq_true, if_false]
      have hdstget : fsGet fs dst = none ∨ ∃ c0, fsGet fs dst = some (Entry.file c0) := by
        rcases h : fsGet fs dst with _ | e2
        · exact Or.inl rfl
        · cases e2
          · rw [isdir_iff.mpr h] at hddir
            cases hddir
          · exact Or.inr ⟨_, rfl⟩
      have hrun : shutilCopy fs src dst = .ok (fsPut fs dst (Entry.file c)) := by
        rw [shutilCopy.eq_def, hc]
        simp only
        rw [hddir]
        simp only [Bool.false_eq_true, if_false]
        rcases hdstget with h | ⟨c0, h⟩
        · rw [h]
          simp only
          cases dst with
          | nil => exact absurd rfl hdne
          | cons a d => rw [if_pos hdpar]
        · rw [h]
          simp only
          cases dst with
          | nil => exact absurd rfl hdne
          | cons a d => rw [if_pos hdpar]
      rw [hrun]
      have hwfr : wf (fsPut fs dst (Entry.file c)) := by
        rcases hdstget with h | ⟨c0, h⟩
        · exact wf_fsPut_new hwf _ h hdne (isdir_iff.mp hdpar)
        · exact wf_fsPut_replace_file hwf h
      refine ⟨fsPut fs dst (Entry.file c), rfl, hwfr, ?_, ?_⟩
      · intro k
        rw [fsGet_fsPut]
        rcases hp : prefixRest dst k with _ | rest
        · have hle : le dst k = false := prefixRest_eq_none_iff.mp hp
          have hk : k ≠ dst := by
            rintro rfl
            rw [le_refl] at hle
            cases hle
          rw [copyResultGet_of_none hp, if_neg hk]
        · rcases rest with _ | ⟨n, r⟩
          · have hk : k = dst := by simpa using prefixRest_eq_some hp
            rw [copyResultGet_of_some hp, if_pos hk, List.append_nil, hc]
          · have hk : k = dst ++ n :: r := prefixRest_eq_some hp
            have hkne : k ≠ dst := by
              rw [hk]
              intro hcontra
              have := congrArg List.length hcontra
              simp at this
            rw [copyResultGet_of_some hp, if_neg hkne]
            have h1 : fsGet fs k = none := by
              refine fsGet_none_of_not_dir hwf (q := dst) ?_ ?_ (fun h => hkne h.symm)
              · intro hcontra
                rw [isdir_iff.mpr hcontra] at hddir
                cases hddir
              · rw [hk]
                exact le_iff.mpr ⟨n :: r, rfl⟩
            have h2 : fsGet fs (src ++ n :: r) = none := by
              refine fsGet_none_of_not_dir hwf (q := src) ?_ ?_ ?_
              · rw [hc]
                simp
              · exact le_iff.mpr ⟨n :: r, rfl⟩
              · intro hcontra
                have := congrArg List.length hcontra
                simp at this
            rw [h1, h2]
      · exact filter_fsPut_key_false (g := fun k => !le dst k) (by simp [le_refl])

/-! ## Correctness of `os.rename` -/

theorem fsGet_renameMap {fs : Fs} {src dst : Path}
    (hclear : ∀ k, le dst k = true → fsGet fs k = none) :
    ∀ k, fsGet (renameMap fs src dst) k =
      match prefixRest dst k with
      | some r => fsGet fs (src ++ r)
      | none => if le src k = true then none else fsGet fs k := by
  induction fs with
  | nil =>
    intro k
    rcases hp : prefixRest dst k with _ | r
    · simp only [renameMap, List.map_nil, fsGet_nil]
      rcases h : le src k <;> simp
    · simp [renameMap, fsGet_nil]
  | cons q fs ih =>
    have hclear2 : ∀ k, le dst k = true → fsGet fs k = none := by
      intro k hk
      have h := hclear k hk
      rw [fsGet_cons] at h
      by_cases hq : q.1 = k
      · rw [if_pos hq] at h
        cases h
      · rwa [if_neg hq] at h
    have ih2 := ih hclear2
    intro k
    have hmap : renameMap (q :: fs) src dst
        = (match prefixRest src q.1 with
            | some r => (dst ++ r, q.2)
            | none => q) :: renameMap fs src dst := rfl
    rw [hmap]
    rcases hq : prefixRest src q.1 with _ | r0
    · -- entry not moved
      have hqs : le src q.1 = false := prefixRest_eq_none_iff.mp hq
      rw [fsGet_cons]
      by_cases hk : q.1 = k
      · subst hk
        rw [if_pos rfl]
        have hdk : le dst q.1 = false := by
          rcases h2 : le dst q.1
          · rfl
          · have := hclear q.1 h2
            rw [fsGet_cons, if_pos rfl] at this
            cases this
        rw [prefixRest_eq_none_iff.mpr hdk]
        rw [hqs]
        simp only [Bool.false_eq_true, if_false]
        rw [fsGet_cons, if_pos rfl]
      · rw [if_neg hk, ih2 k]
        rcases hp : prefixRest dst k with _ | r
        · rcases hsk : le src k
          · simp only [Bool.false_eq_true, if_false]
            rw [fsGet_cons, if_neg hk]
          · rfl
        · have hq2 : q.1 ≠ src ++ r := by
            intro hcontra
            rw [hcontra, le_append] at hqs
            cases hqs
          simp only
          rw [fsGet_cons, if_neg hq2]
    · -- entry moved: q.1 = src ++ r0
      have hq1 : q.1 = src ++ r0 := prefixRest_eq_some hq
      rw [fsGet_cons]
      by_cases hk : dst ++ r0 = k
      · rw [if_pos (by simpa using hk)]
        have hp2 : prefixRest dst k = some r0 := by
          rw [← hk]
          exact prefixRest_append dst r0
        rw [hp2]
        simp only
        rw [fsGet_cons, if_pos hq1]
      · rw [if_neg (by simpa using hk), ih2 k]
        rcases hp : prefixRest dst k with _ | r
        · rcases hsk : le src k
          · simp only [Bool.false_eq_true, if_false]
            have hq2 : q.1 ≠ k := by
              intro hcontra
              rw [← hcontra, hq1, le_append] at hsk
              cases hsk
            rw [fsGet_cons, if_neg hq2]
          · rfl
        · have hq2 : q.1 ≠ src ++ r := by
            intro hcontra
            rw [hq1] at hcontra
            have : r0 = r := List.append_cancel_left hcontra
            rw [this] at hk
            exact hk (prefixRest_eq_some hp).symm
          simp only
          rw [fsGet_cons, if_neg hq2]

/-- The relocation `os.rename` applies to a single location. -/
def renameKey (src dst : Path) (k : Path) : Path :=
  match prefixRest src k with
  | some r => dst ++ r
  | none => k

theorem map_fst_renameMap (fs : Fs) (src dst : Path) :
    (renameMap fs src dst).map Prod.fst
      = (fs.map Prod.fst).map (renameKey src dst) := by
  induction fs with
  | nil => rfl
  | cons q fs ih =>
    have hmap : renameMap (q :: fs) src dst
        = (match prefixRest src q.1 with
            | some r => (dst ++ r, q.2)
            | none => q) :: renameMap fs src dst := rfl
    rw [hmap, List.map_cons, List.map_cons, List.map_cons, ih]
    rcases hq : prefixRest src q.1 with _ | r
    · simp only [renameKey, hq]
    · simp only [renameKey, hq]

theorem nodup_renameMap {fs : Fs} (hnodup : (fs.map Prod.fst).Nodup)
    {src dst : Path} (hclear : ∀ k, le dst k = true → fsGet fs k = none) :
    ((renameMap fs src dst).map Prod.fst).Nodup := by
  rw [map_fst_renameMap]
  refine List.Nodup.map_on ?_ hnodup
  intro x hx y hy hxy
  have hmem : ∀ z, z ∈ fs.map Prod.fst → le dst z = false := by
    intro z hz
    rcases List.mem_map.mp hz with ⟨pe, hpe, rfl⟩
    rcases h2 : le dst pe.1
    · rfl
    · exfalso
      have h3 := hclear pe.1 h2
      have h4 := fsGet_isSome_of_mem hpe
      rw [h3] at h4
      cases h4
  unfold renameKey at hxy
  rcases hqx : prefixRest src x with _ | rx <;> rw [hqx] at hxy <;>
    rcases hqy : prefixRest src y with _ | ry <;> rw [hqy] at hxy <;>
    simp only at hxy
  · exact hxy
  · exfalso
    have := hmem x hx
    rw [hxy, le_append] at this
    cases this
  · exfalso
    have := hmem y hy
    rw [← hxy, le_append] at this
    cases this
  · have : rx = ry := List.append_cancel_left hxy
    rw [prefixRest_eq_some hqx, prefixRest_eq_some hqy, this]

theorem wf_renameMap {fs : Fs} (hwf : wf fs) {src dst : Path}
    (hclear : ∀ k, le dst k = true → fsGet fs k = none)
    (hsd : le src dst = false) (hds : le dst src = false)
    (hdne : dst ≠ []) (hdpar : fsGet fs dst.dropLast = some Entry.dir) :
    wf (renameMap fs src dst) := by
  constructor
  · exact nodup_renameMap hwf.1 hclear
  · intro pe2 hpe2 hne2
    rcases List.mem_map.mp hpe2 with ⟨pe, hpe, hpe2eq⟩
    have hget := @fsGet_renameMap fs src dst hclear
    rcases hq : prefixRest src pe.1 with _ | r
    · -- entry kept in place
      have hpe2k : pe2 = pe := by
        rw [← hpe2eq, hq]
      rw [hpe2k] at hne2 ⊢
      have hsome := fsGet_isSome_of_mem hpe
      have hd1 : le dst pe.1.dropLast = false := by
        rcases h2 : le dst pe.1.dropLast
        · rfl
        · exfalso
          have h3 : le dst pe.1 = true :=
            le_trans h2 (le_dropLast_self hne2)
          have h4 := hclear pe.1 h3
          rw [h4] at hsome
          cases hsome
      have hs1 : le src pe.1.dropLast = false := by
        rcases h2 : le src pe.1.dropLast
        · rfl
        · exfalso
          have h3 : le src pe.1 = true :=
            le_trans h2 (le_dropLast_self hne2)
          rw [prefixRest_eq_none_iff.mp hq] at h3
          cases h3
      rw [hget, prefixRest_eq_none_iff.mpr hd1]
      simp only [hs1, Bool.false_eq_true, if_false]
      exact hwf.2 pe hpe hne2
    · -- entry relocated below dst
      have hpe1 : pe.1 = src ++ r := prefixRest_eq_some hq
      have hpe2k : pe2 = (dst ++ r, pe.2) := by
        rw [← hpe2eq, hq]
      subst hpe2k
      simp only
      rcases r with _ | ⟨a, r2⟩
      · -- the source location itself, relocated to dst
        rw [List.append_nil]
        rw [hget, prefixRest_eq_none_iff.mpr (le_dropLast_false hdne)]
        have hs1 : le src dst.dropLast = false := by
          rcases h2 : le src dst.dropLast
          · rfl
          · exfalso
            have h3 : le src dst = true := le_trans h2 (le_dropLast_self hdne)
            rw [h3] at hsd
            cases hsd
        simp only [hs1, Bool.false_eq_true, if_false]
        exact hdpar
      · have hdl : (dst ++ a :: r2).dropLast = dst ++ (a :: r2).dropLast := by
          rw [List.dropLast_append_of_ne_nil]
          simp
        rw [hdl, hget, prefixRest_append]
        have hsl : (src ++ a :: r2).dropLast = src ++ (a :: r2).dropLast := by
          rw [List.dropLast_append_of_ne_nil]
          simp
        have hpar2 := hwf.2 pe hpe (by
          rw [hpe1]
          simp)
        rw [hpe1, hsl] at hpar2
        exact hpar2

theorem filter_renameMap (fs : Fs) (src dst : Path) :
    (renameMap fs src dst).filter (fun pe => !le dst pe.1 && !le src pe.1)
      = fs.filter (fun pe => !le dst pe.1 && !le src pe.1) := by
  induction fs with
  | nil => rfl
  | cons q fs ih =>
    have hmap : renameMap (q :: fs) src dst
        = (match prefixRest src q.1 with
            | some r => (dst ++ r, q.2)
            | none => q) :: renameMap fs src dst := rfl
    rw [hmap, List.filter_cons, List.filter_cons]
    rcases hq : prefixRest src q.1 with _ | r
    · simp only
      rw [ih]
    · have h1 : le src q.1 = true := by
        rw [prefixRest_eq_some hq]
        exact le_append src r
      simp only [h1, le_append, Bool.not_true, Bool.and_false, Bool.false_and,
        Bool.false_eq_true, if_false]
      rw [ih]

/-! ## Correctness of `move` -/

/-- Intended final lookup function after a move of `src` to `dst`. -/
def moveResultGet (fs : Fs) (src dst k : Path) : Option Entry :=
  match prefixRest dst k with
  | some rest => fsGet fs (src ++ rest)
  | none => if le src k = true then none else fsGet fs k

theorem moveResultGet_of_none {fs : Fs} {src dst k : Path}
    (h : prefixRest dst k = none) :
    moveResultGet fs src dst k = if le src k = true then none else fsGet fs k := by
  unfold moveResultGet
  rw [h]

theorem moveResultGet_of_some {fs : Fs} {src dst k rest : Path}
    (h : prefixRest dst k = some rest) :
    moveResultGet fs src dst k = fsGet fs (src ++ rest) := by
  unfold moveResultGet
  rw [h]

/-- Lookup function while the children `done` have been moved so far. -/
def moveSpecGet (fs : Fs) (src dst : Path) (done : List String) (k : Path) :
    Option Entry :=
  match prefixRest dst k with
  | some [] => some Entry.dir
  | some (n :: rest) => if n ∈ done then fsGet fs (src ++ n :: rest) else none
  | none =>
    match prefixRest src k with
    | some [] => some Entry.dir
    | some (n :: rest) => if n ∈ done then none else fsGet fs (src ++ n :: rest)
    | none => fsGet fs k

theorem moveSpecGet_dst_nil {fs : Fs} {src dst k : Path} {done : List String}
    (h : prefixRest dst k = some []) :
    moveSpecGet fs src dst done k = some Entry.dir := by
  unfold moveSpecGet
  rw [h]

theorem moveSpecGet_dst_cons {fs : Fs} {src dst k : Path} {done : List String}
    {n : String} {rest : Path} (h : prefixRest dst k = some (n :: rest)) :
    moveSpecGet fs src dst done k
      = if n ∈ done then fsGet fs (src ++ n :: rest) else none := by
  unfold moveSpecGet
  rw [h]

theorem moveSpecGet_src_nil {fs : Fs} {src dst k : Path} {done : List String}
    (hd : prefixRest dst k = none) (hs : prefixRest src k = some []) :
    moveSpecGet fs src dst done k = some Entry.dir := by
  unfold moveSpecGet
  rw [hd]
  simp only
  rw [hs]

theorem moveSpecGet_src_cons {fs : Fs} {src dst k : Path} {done : List String}
    {n : String} {rest : Path} (hd : prefixRest dst k = none)
    (hs : prefixRest src k = some (n :: rest)) :
    moveSpecGet fs src dst done k
      = if n ∈ done then none else fsGet fs (src ++ n :: rest) := by
  unfold moveSpecGet
  rw [hd]
  simp only
  rw [hs]

theorem moveSpecGet_out {fs : Fs} {src dst k : Path} {done : List String}
    (hd : prefixRest dst k = none) (hs : prefixRest src k = none) :
    moveSpecGet fs src dst done k = fsGet fs k := by
  unfold moveSpecGet
  rw [hd]
  simp only
  rw [hs]

/-- Preconditions of the move correctness lemma. -/
def MoveHyp (fuel : Nat) (fs : Fs) (src dst : Path) : Prop :=
  wf fs ∧ (fsGet fs src).isSome = true ∧
  le src dst = false ∧ le dst src = false ∧ dst ≠ [] ∧
  isdir fs dst.dropLast = true ∧
  subCount fs src + subCount fs dst + 1 < fuel

/-- Postcondition of the move correctness lemma. -/
def MoveConcl (fs : Fs) (src dst : Path) (r : Except Err Fs) : Prop :=
  ∃ fs2, r = .ok fs2 ∧ wf fs2 ∧ (∀ k, fsGet fs2 k = moveResultGet fs src dst k) ∧
    fs2.filter (fun pe => !le dst pe.1 && !le src pe.1)
      = fs.filter (fun pe => !le dst pe.1 && !le src pe.1)

theorem rename_eq_ok {fs : Fs} {src dst : Path} (hsrc : fsExists fs src = true)
    (hdst : fsExists fs dst = false) (hdne : dst ≠ [])
    (hdpar : isdir fs dst.dropLast = true) :
    rename fs src dst = .ok (renameMap fs src dst) := by
  unfold rename
  rw [hsrc, hdst]
  simp only [Bool.false_eq_true, if_false, if_true]
  cases dst with
  | nil => exact absurd rfl hdne
  | cons a d => rw [if_pos hdpar]

theorem filter_length_le_one {fs : Fs} (hnodup : (fs.map Prod.fst).Nodup)
    {p : Path × Entry → Bool} {a : Path} (h : ∀ pe ∈ fs, p pe = true → pe.1 = a) :
    (fs.filter p).length ≤ 1 := by
  induction fs with
  | nil => simp
  | cons x fs ih =>
    simp only [List.map_cons, List.nodup_cons] at hnodup
    rw [List.filter_cons]
    by_cases hp : p x = true
    · rw [if_pos hp]
      have hnil : fs.filter p = [] := by
        rw [List.filter_eq_nil_iff]
        intro pe hpe hppe
        have h1 : pe.1 = a := h pe (List.mem_cons_of_mem _ hpe) (by simpa using hppe)
        have h2 : x.1 = a := h x (List.mem_cons_self x fs) hp
        exact hnodup.1 (by
          rw [h2, ← h1]
          exact List.mem_map.mpr ⟨pe, hpe, rfl⟩)
      rw [hnil]
      simp
    · rw [if_neg hp]
      exact ih hnodup.2 (fun pe hpe => h pe (List.mem_cons_of_mem _ hpe))

theorem move_child_dst_none {fs : Fs} {src dst : Path} {done : List String}
    {g : Fs} (hinv : ∀ k, fsGet g k = moveSpecGet fs src dst done k)
    {n : String} (hnd : n ∉ done) :
    ∀ k, le (dst ++ [n]) k = true → fsGet g k = none := by
  intro k hk
  rcases le_iff.mp hk with ⟨r, rfl⟩
  have h1 : prefixRest dst (dst ++ [n] ++ r) = some (n :: r) := by
    rw [List.append_assoc, List.singleton_append]
    exact prefixRest_append dst (n :: r)
  rw [hinv, moveSpecGet_dst_cons h1, if_neg hnd]

theorem foldE_move_inv (F : Nat) (fs : Fs) (src dst : Path)
    (IH : ∀ fs2 src2 dst2, MoveHyp F fs2 src2 dst2 →
      MoveConcl fs2 src2 dst2 (moveOp F fs2 src2 dst2))
    (hwf : wf fs) (hs : fsGet fs src = some Entry.dir)
    (hsd : le src dst = false) (hds : le dst src = false)
    (harith : subCount fs src + subCount fs dst + 1 < F + 1) :
    ∀ (ns done : List String) (g : Fs), listdir fs src = done ++ ns →
      wf g →
      (∀ k, fsGet g k = moveSpecGet fs src dst done k) →
      (g.filter (fun pe =>
          !le dst pe.1 && !(done.any (fun n => le (src ++ [n]) pe.1)))
        = fs.filter (fun pe =>
          !le dst pe.1 && !(done.any (fun n => le (src ++ [n]) pe.1)))) →
      ∃ g2, foldE (fun f n => moveOp F f (src ++ [n]) (dst ++ [n])) g ns
          = .ok g2 ∧
        wf g2 ∧ (∀ k, fsGet g2 k = moveSpecGet fs src dst (done ++ ns) k) ∧
        (g2.filter (fun pe =>
            !le dst pe.1 && !((done ++ ns).any (fun n => le (src ++ [n]) pe.1)))
          = fs.filter (fun pe =>
            !le dst pe.1 && !((done ++ ns).any (fun n => le (src ++ [n]) pe.1)))) := by
  intro ns
  induction ns with
  | nil =>
    intro done g hlist hwfg hinv hframe
    refine ⟨g, rfl, hwfg, ?_, ?_⟩
    · simpa using hinv
    · simpa using hframe
  | cons n ns ih =>
    intro done g hlist hwfg hinv hframe
    have hnames_nodup : (listdir fs src).Nodup := listdir_nodup hwf.1 src
    have hn_mem : n ∈ listdir fs src := by
      rw [hlist]
      exact List.mem_append_right done (List.mem_cons_self n ns)
    have hn_not_done : n ∉ done := by
      intro hmem
      rw [hlist] at hnames_nodup
      exact (List.nodup_append.mp hnames_nodup).2.2 hmem (List.mem_cons_self n ns)
    have hsrcn_fs : (fsGet fs (src ++ [n])).isSome = true := by
      rcases mem_listdir.mp hn_mem with ⟨e, he⟩
      simpa using fsGet_isSome_of_mem he
    have hsd2 : le (src ++ [n]) (dst ++ [n]) = false := le_snoc_ne hsd hds
    have hds2 : le (dst ++ [n]) (src ++ [n]) = false := le_snoc_ne hds hsd
    have hnd_srcn : le dst (src ++ [n]) = false :=
      le_disjoint hsd hds (le_append src [n])
    have hps_srcn : prefixRest src (src ++ [n]) = some [n] :=
      prefixRest_append src [n]
    have hgsrcn : fsGet g (src ++ [n]) = fsGet fs (src ++ [n]) := by
      rw [hinv, moveSpecGet_src_cons (prefixRest_eq_none_iff.mpr hnd_srcn)
        hps_srcn, if_neg hn_not_done]
    have hgdst : fsGet g dst = some Entry.dir := by
      rw [hinv, moveSpecGet_dst_nil (prefixRest_self dst)]
    have hreg_srcn : g.filter (fun pe => le (src ++ [n]) pe.1)
        = fs.filter (fun pe => le (src ++ [n]) pe.1) := by
      refine filter_subframe
        (P := fun k => !le dst k && !(done.any (fun m => le (src ++ [m]) k)))
        (Q := fun k => le (src ++ [n]) k) ?_ hframe
      intro k hk
      have h1 : le src k = true := le_trans (le_append src [n]) hk
      have h2 := le_disjoint hsd hds h1
      have h3 : (done.any (fun m => le (src ++ [m]) k)) = false := by
        rw [List.any_eq_false]
        intro m hm
        intro hcon
        have hcon2 : le (src ++ [m]) k = true := by simpa using hcon
        rcases le_comparable hcon2 hk with h4 | h4
        · have h5 : src ++ [m] = src ++ [n] :=
            le_eq_of_length h4 (by simp)
          have : m = n := by
            have := List.append_cancel_left h5
            simpa using this
          rw [this] at hm
          exact hn_not_done hm
        · have h5 : src ++ [n] = src ++ [m] :=
            le_eq_of_length h4 (by simp)
          have : n = m := by
            have := List.append_cancel_left h5
            simpa using this
          rw [← this] at hm
          exact hn_not_done hm
      simp [h2, h3]
    have hcount_srcn : subCount g (src ++ [n]) = subCount fs (src ++ [n]) :=
      subCount_eq_of_region hreg_srcn
    have hcount_dstn : subCount g (dst ++ [n]) = 0 := by
      rw [subCount, filter_region_nil (move_child_dst_none hinv hn_not_done)]
      rfl
    have hchild : MoveHyp F g (src ++ [n]) (dst ++ [n]) := by
      refine ⟨hwfg, ?_, hsd2, hds2, by simp, ?_, ?_⟩
      · rw [hgsrcn]
        exact hsrcn_fs
      · rw [List.dropLast_concat]
        exact isdir_iff.mpr hgdst
      · have hlt : subCount fs (src ++ [n]) < subCount fs src :=
          subCount_child_lt (by rw [hs]; rfl) n
        omega
    obtain ⟨g2, hrun, hwf2, hget2, hframe2⟩ :=
      IH g (src ++ [n]) (dst ++ [n]) hchild
    have hinv2 : ∀ k, fsGet g2 k = moveSpecGet fs src dst (done ++ [n]) k := by
      intro k
      rw [hget2 k]
      rcases hp : prefixRest dst k with _ | rest
      · -- k is not below dst
        have hle : le dst k = false := prefixRest_eq_none_iff.mp hp
        have h1 : prefixRest (dst ++ [n]) k = none := by
          refine prefixRest_eq_none_iff.mpr ?_
          rcases h2 : le (dst ++ [n]) k
          · rfl
          · rw [le_trans (le_append dst [n]) h2] at hle
            cases hle
        rw [moveResultGet_of_none h1]
        rcases hq : prefixRest src k with _ | rest2
        · -- outside both subtrees
          have hsk : le src k = false := prefixRest_eq_none_iff.mp hq
          have h2 : le (src ++ [n]) k = false := by
            rcases h3 : le (src ++ [n]) k
            · rfl
            · rw [le_trans (le_append src [n]) h3] at hsk
              cases hsk
          rw [h2]
          simp only [Bool.false_eq_true, if_false]
          rw [hinv k, moveSpecGet_out hp hq, moveSpecGet_out hp hq]
        · rcases rest2 with _ | ⟨m, r⟩
          · -- k = src
            have hk : k = src := by simpa using prefixRest_eq_some hq
            have h2 : le (src ++ [n]) k = false := by
              rw [hk]
              exact le_child_self src n
            rw [h2]
            simp only [Bool.false_eq_true, if_false]
            rw [hinv k, moveSpecGet_src_nil hp hq, moveSpecGet_src_nil hp hq]
          · have hk : k = src ++ m :: r := prefixRest_eq_some hq
            by_cases hmn : m = n
            · subst hmn
              have h2 : le (src ++ [m]) k = true := by
                rw [hk]
                refine le_iff.mpr ⟨r, by simp⟩
              rw [h2]
              simp only [if_true]
              rw [moveSpecGet_src_cons hp hq,
                if_pos (List.mem_append_right done (List.mem_cons_self m []))]
            · have h2 : le (src ++ [n]) k = false := by
                rcases h3 : le (src ++ [n]) k
                · rfl
                · exfalso
                  rcases le_iff.mp h3 with ⟨r2, hr2⟩
                  rw [hk, List.append_assoc, List.singleton_append] at hr2
                  have := List.append_cancel_left hr2
                  simp only [List.cons.injEq] at this
                  exact hmn this.1
              rw [h2]
              simp only [Bool.false_eq_true, if_false]
              rw [hinv k, moveSpecGet_src_cons hp hq, moveSpecGet_src_cons hp hq]
              have hmm : (m ∈ done ++ [n]) ↔ (m ∈ done) := by
                rw [List.mem_append]
                simp [hmn]
              by_cases hm : m ∈ done
              · rw [if_pos hm, if_pos (hmm.mpr hm)]
              · rw [if_neg hm, if_neg (fun h => hm (hmm.mp h))]
      · rcases rest with _ | ⟨m, r⟩
        · -- k = dst
          have hk : k = dst := by simpa using prefixRest_eq_some hp
          have h1 : prefixRest (dst ++ [n]) k = none := by
            refine prefixRest_eq_none_iff.mpr ?_
            rw [hk]
            exact le_child_self dst n
          have h2 : le (src ++ [n]) k = false := by
            rcases h3 : le (src ++ [n]) k
            · rfl
            · exfalso
              have h4 : le src k = true := le_trans (le_append src [n]) h3
              rw [hk] at h4
              rw [h4] at hsd
              cases hsd
          rw [moveResultGet_of_none h1, h2]
          simp only [Bool.false_eq_true, if_false]
          rw [hinv k, moveSpecGet_dst_nil hp, moveSpecGet_dst_nil hp]
        · have hk : k = dst ++ m :: r := prefixRest_eq_some hp
          by_cases hmn : m = n
          · subst hmn
            have h1 : prefixRest (dst ++ [m]) k = some r := by
              rw [hk]
              have hsplit : dst ++ m :: r = (dst ++ [m]) ++ r := by simp
              rw [hsplit]
              exact prefixRest_append (dst ++ [m]) r
            rw [moveResultGet_of_some h1]
            have h3 : le dst (src ++ [m] ++ r) = false := by
              refine le_disjoint hsd hds ?_
              rw [List.append_assoc]
              exact le_append src ([m] ++ r)
            have hq2 : prefixRest src (src ++ [m] ++ r) = some (m :: r) := by
              rw [List.append_assoc, List.singleton_append]
              exact prefixRest_append src (m :: r)
            rw [hinv, moveSpecGet_src_cons (prefixRest_eq_none_iff.mpr h3) hq2,
              if_neg hn_not_done, moveSpecGet_dst_cons hp,
              if_pos (List.mem_append_right done (List.mem_cons_self m []))]
          · have h1 : prefixRest (dst ++ [n]) k = none := by
              refine prefixRest_eq_none_iff.mpr ?_
              rcases h2 : le (dst ++ [n]) k
              · rfl
              · exfalso
                rcases le_iff.mp h2 with ⟨r2, hr2⟩
                rw [hk, List.append_assoc, List.singleton_append] at hr2
                have := List.append_cancel_left hr2
                simp only [List.cons.injEq] at this
                exact hmn this.1
            have h2 : le (src ++ [n]) k = false := by
              rcases h3 : le (src ++ [n]) k
              · rfl
              · exfalso
                have h4 : le src k = true := le_trans (le_append src [n]) h3
                have h5 : le dst k = true := by
                  rw [hk]
                  exact le_iff.mpr ⟨m :: r, rfl⟩
                have := le_disjoint hsd hds h4
                rw [h5] at this
                cases this
            rw [moveResultGet_of_none h1, h2]
            simp only [Bool.false_eq_true, if_false]
            rw [hinv k, moveSpecGet_dst_cons hp, moveSpecGet_dst_cons hp]
            have hmm : (m ∈ done ++ [n]) ↔ (m ∈ done) := by
              rw [List.mem_append]
              simp [hmn]
            by_cases hm : m ∈ done
            · rw [if_pos hm, if_pos (hmm.mpr hm)]
            · rw [if_neg hm, if_neg (fun h => hm (hmm.mp h))]
    have himp_new : ∀ k,
        (!le dst k && !((done ++ [n]).any (fun m => le (src ++ [m]) k))) = true →
        (!le dst k && !(done.any (fun m => le (src ++ [m]) k))) = true := by
      intro k hk
      simp only [Bool.and_eq_true, Bool.not_eq_true', List.any_eq_false] at hk ⊢
      exact ⟨hk.1, fun m hm => hk.2 m (List.mem_append_left [n] hm)⟩
    have hframe3 : g2.filter (fun pe =>
          !le dst pe.1 && !((done ++ [n]).any (fun m => le (src ++ [m]) pe.1)))
        = fs.filter (fun pe =>
          !le dst pe.1 && !((done ++ [n]).any (fun m => le (src ++ [m]) pe.1))) := by
      have h1 : g2.filter (fun pe =>
            !le dst pe.1 && !((done ++ [n]).any (fun m => le (src ++ [m]) pe.1)))
          = g.filter (fun pe =>
            !le dst pe.1 && !((done ++ [n]).any (fun m => le (src ++ [m]) pe.1))) := by
        refine filter_subframe
          (P := fun k => !le (dst ++ [n]) k && !le (src ++ [n]) k)
          (Q := fun k =>
            !le dst k && !((done ++ [n]).any (fun m => le (src ++ [m]) k)))
          ?_ hframe2
        intro k hk
        simp only [Bool.and_eq_true, Bool.not_eq_true', List.any_eq_false] at hk ⊢
        constructor
        · rcases h2 : le (dst ++ [n]) k
          · rfl
          · rw [le_trans (le_append dst [n]) h2] at hk
            exact absurd hk.1 (by simp)
        · have h5 := hk.2 n (List.mem_append_right done (List.mem_cons_self n []))
          simpa using h5
      rw [h1]
      refine filter_subframe
        (P := fun k => !le dst k && !(done.any (fun m => le (src ++ [m]) k)))
        (Q := fun k =>
          !le dst k && !((done ++ [n]).any (fun m => le (src ++ [m]) k)))
        himp_new hframe
    have hlist2 : listdir fs src = (done ++ [n]) ++ ns := by
      rw [hlist, List.append_assoc, List.singleton_append]
    obtain ⟨g3, hrun3, hwf3, hget3, hframe4⟩ :=
      ih (done ++ [n]) g2 hlist2 hwf2 hinv2 hframe3
    refine ⟨g3, ?_, hwf3, ?_, ?_⟩
    · rw [foldE_cons, hrun]
      exact hrun3
    · intro k
      rw [hget3 k, List.append_assoc, List.singleton_append]
    · rw [List.append_assoc, List.singleton_append] at hframe4
      exact hframe4

theorem fsGet_not_child_none {fs : Fs} (hwf : wf fs) {src : Path} {m : String}
    (hm : m ∉ listdir fs src) (r : Path) : fsGet fs (src ++ m :: r) = none := by
  have h1 : fsGet fs (src ++ [m]) = none := by
    rw [fsGet_eq_none_iff]
    rintro ⟨k0, e0⟩ hpe hkk
    simp only at hkk
    subst hkk
    exact hm (mem_listdir.mpr ⟨e0, hpe⟩)
  rcases r with _ | ⟨a, r3⟩
  · exact h1
  · refine fsGet_none_of_not_dir hwf (q := src ++ [m]) ?_ ?_ ?_
    · rw [h1]
      simp
    · exact le_iff.mpr ⟨a :: r3, by simp⟩
    · intro hcontra
      have := congrArg List.length hcontra
      simp at this

theorem moveOp_master :
    ∀ (fuel : Nat) (fs : Fs) (src dst : Path),
      MoveHyp fuel fs src dst → MoveConcl fs src dst (moveOp fuel fs src dst) := by
  intro fuel
  induction fuel with
  | zero =>
    rintro fs src dst ⟨_, _, _, _, _, _, harith⟩
    omega
  | succ F IH =>
    rintro fs src dst ⟨hwf, hsome, hsd, hds, hdne, hdpar, harith⟩
    have hcsrc : 0 < subCount fs src := subCount_pos hsome
    rw [moveOp]
    have hfs1 : ∃ fs1,
        (if fsExists fs dst = true then deleteOp F fs dst else .ok fs) = .ok fs1 ∧
        wf fs1 ∧
        (∀ k, fsGet fs1 k = if le dst k = true then none else fsGet fs k) ∧
        fs1.filter (fun pe => !le dst pe.1) = fs.filter (fun pe => !le dst pe.1) := by
      by_cases he : fsExists fs dst = true
      · rw [if_pos he]
        refine ⟨removeSubtree fs dst,
          deleteOp_correct F fs dst hwf (by omega),
          wf_removeSubtree hwf dst, ?_, ?_⟩
        · intro k
          rw [fsGet_removeSubtree]
        · rw [removeSubtree, List.filter_filter]
          refine List.filter_congr ?_
          intro pe _
          rcases h : le dst pe.1 <;> simp [h]
      · rw [if_neg he]
        have hnone : fsGet fs dst = none := by
          rcases h : fsGet fs dst with _ | e
          · rfl
          · exfalso
            rw [fsExists, h] at he
            exact he rfl
        refine ⟨fs, rfl, hwf, ?_, rfl⟩
        intro k
        by_cases hle : le dst k = true
        · rw [if_pos hle]
          by_cases hk : k = dst
          · rw [hk, hnone]
          · exact fsGet_none_of_not_dir hwf (by rw [hnone]; simp) hle
              (fun h => hk h.symm)
        · rw [if_neg hle]
    obtain ⟨fs1, hrun1, hwf1, hget1, hframe1⟩ := hfs1
    rw [hrun1]
    simp only
    have hsrc1 : fsGet fs1 src = fsGet fs src := by
      rw [hget1, if_neg (by rw [hds]; simp)]
    have hdstnone1 : fsGet fs1 dst = none := by
      rw [hget1 dst, if_pos (le_refl dst)]
    have hpar1 : isdir fs1 dst.dropLast = true := by
      rw [isdir_iff, hget1, if_neg (by rw [le_dropLast_false hdne]; simp)]
      exact isdir_iff.mp hdpar
    by_cases hsdir : isdir fs1 src = true
    · -- directory source
      rw [if_pos hsdir]
      have hs : fsGet fs src = some Entry.dir := by
        rw [← hsrc1]
        exact isdir_iff.mp hsdir
      rw [mkdir_eq_ok hdstnone1 hdne hpar1]
      simp only
      have hwf2 : wf (fs1 ++ [(dst, Entry.dir)]) :=
        wf_append_entry hwf1 _ hdstnone1 hdne (isdir_iff.mp hpar1)
      have hframe2 : (fs1 ++ [(dst, Entry.dir)]).filter (fun pe => !le dst pe.1)
          = fs.filter (fun pe => !le dst pe.1) := by
        rw [List.filter_append, ← hframe1]
        have h1 : ([((dst : Path), Entry.dir)]).filter (fun pe => !le dst pe.1)
            = [] := by
          simp [le_refl]
        rw [h1, List.append_nil]
      have hreg2_src : (fs1 ++ [(dst, Entry.dir)]).filter (fun pe => le src pe.1)
          = fs.filter (fun pe => le src pe.1) := by
        refine filter_subframe (P := fun k => !le dst k)
          (Q := fun k => le src k) ?_ hframe2
        intro k hk
        have h2 := le_disjoint hsd hds hk
        simp [h2]
      have hlist2 : listdir (fs1 ++ [(dst, Entry.dir)]) src = listdir fs src :=
        listdir_eq_of_region hreg2_src
      rw [hlist2]
      have hget2 : ∀ k, fsGet (fs1 ++ [(dst, Entry.dir)]) k
          = moveSpecGet fs src dst [] k := by
        intro k
        rw [fsGet_append_single, hget1 k]
        rcases hp : prefixRest dst k with _ | rest
        · have hle : le dst k = false := prefixRest_eq_none_iff.mp hp
          have hk : k ≠ dst := by
            rintro rfl
            rw [le_refl] at hle
            cases hle
          rcases hq : prefixRest src k with _ | rest2
          · rw [moveSpecGet_out hp hq, if_neg (by rw [hle]; simp)]
            rcases h2 : fsGet fs k with _ | v
            · simp only
              rw [if_neg hk]
            · rfl
          · rcases rest2 with _ | ⟨n, r⟩
            · have hks : k = src := by simpa using prefixRest_eq_some hq
              rw [moveSpecGet_src_nil hp hq, if_neg (by rw [hle]; simp), hks, hs]
            · have hks : k = src ++ n :: r := prefixRest_eq_some hq
              rw [moveSpecGet_src_cons hp hq, if_neg (List.not_mem_nil n),
                if_neg (by rw [hle]; simp), ← hks]
              rcases h2 : fsGet fs k with _ | v
              · simp only
                rw [if_neg hk]
              · rfl
        · rcases rest with _ | ⟨n, r⟩
          · have hk : k = dst := by simpa using prefixRest_eq_some hp
            rw [moveSpecGet_dst_nil hp, if_pos (by rw [hk]; exact le_refl dst)]
            simp only
            rw [if_pos hk]
          · have hk : k = dst ++ n :: r := prefixRest_eq_some hp
            have hkne : k ≠ dst := by
              rw [hk]
              intro hcontra
              have := congrArg List.length hcontra
              simp at this
            have hle : le dst k = true := by
              rw [hk]
              exact le_iff.mpr ⟨n :: r, rfl⟩
            rw [moveSpecGet_dst_cons hp, if_neg (List.not_mem_nil n),
              if_pos hle]
            simp only
            rw [if_neg hkne]
      have hframe2b : (fs1 ++ [(dst, Entry.dir)]).filter (fun pe =>
            !le dst pe.1 && !(([] : List String).any (fun m => le (src ++ [m]) pe.1)))
          = fs.filter (fun pe =>
            !le dst pe.1 && !(([] : List String).any (fun m => le (src ++ [m]) pe.1))) := by
        have hsame : ∀ l : Fs, l.filter (fun pe =>
              !le dst pe.1 && !(([] : List String).any (fun m => le (src ++ [m]) pe.1)))
            = l.filter (fun pe => !le dst pe.1) := by
          intro l
          refine List.filter_congr ?_
          intro pe _
          simp
        rw [hsame, hsame, hframe2]
      obtain ⟨g2, hrun3, hwf3, hget3, hframe3⟩ :=
        foldE_move_inv F fs src dst IH hwf hs hsd hds harith
          (listdir fs src) [] (fs1 ++ [(dst, Entry.dir)]) (by simp) hwf2 hget2
          hframe2b
      rw [hrun3]
      simp only
      simp only [List.nil_append] at hget3 hframe3
      have hstrict_none : ∀ k, le src k = true → k ≠ src → fsGet g2 k = none := by
        intro k hlek hkne
        rcases le_iff.mp hlek with ⟨r, hr⟩
        rcases r with _ | ⟨m, r2⟩
        · exact absurd (by simpa using hr) (fun h => hkne (by rw [h]))
        · subst hr
          have hdk : le dst (src ++ m :: r2) = false :=
            le_disjoint hsd hds (le_append src (m :: r2))
          have hq : prefixRest src (src ++ m :: r2) = some (m :: r2) :=
            prefixRest_append src (m :: r2)
          rw [hget3, moveSpecGet_src_cons (prefixRest_eq_none_iff.mpr hdk) hq]
          by_cases hm : m ∈ listdir fs src
          · rw [if_pos hm]
          · rw [if_neg hm]
            exact fsGet_not_child_none hwf hm r2
      have hsub1 : subCount g2 src ≤ 1 := by
        rw [subCount]
        refine filter_length_le_one hwf3.1 (a := src) ?_
        intro pe hpe hppe
        by_contra hne
        have h2 := hstrict_none pe.1 (by simpa using hppe) hne
        have h3 := fsGet_isSome_of_mem hpe
        rw [h2] at h3
        cases h3
      rw [deleteOp_correct F g2 src hwf3 (by omega)]
      refine ⟨removeSubtree g2 src, rfl, wf_removeSubtree hwf3 src, ?_, ?_⟩
      · intro k
        rw [fsGet_removeSubtree]
        by_cases hlek : le src k = true
        · rw [if_pos hlek]
          have hdk : le dst k = false := le_disjoint hsd hds hlek
          rw [moveResultGet_of_none (prefixRest_eq_none_iff.mpr hdk), if_pos hlek]
        · rw [if_neg hlek]
          have hlekf : le src k = false := by
            rcases h2 : le src k
            · rfl
            · exact absurd h2 hlek
          rcases hp : prefixRest dst k with _ | rest
          · rw [moveResultGet_of_none hp, if_neg hlek]
            rw [hget3, moveSpecGet_out hp (prefixRest_eq_none_iff.mpr hlekf)]
          · rw [moveResultGet_of_some hp]
            rcases rest with _ | ⟨m, r⟩
            · have hk : k = dst := by simpa using prefixRest_eq_some hp
              rw [hget3, moveSpecGet_dst_nil hp, List.append_nil, hs]
            · rw [hget3, moveSpecGet_dst_cons hp]
              by_cases hm : m ∈ listdir fs src
              · rw [if_pos hm]
              · rw [if_neg hm, fsGet_not_child_none hwf hm r]
      · rw [removeSubtree, List.filter_filter]
        have h1 : g2.filter (fun pe =>
              (!le dst pe.1 && !le src pe.1) && !le src pe.1)
            = g2.filter (fun pe => !le dst pe.1 && !le src pe.1) := by
          refine List.filter_congr ?_
          intro pe _
          rcases h2 : le src pe.1 <;> rcases h3 : le dst pe.1 <;> simp [h2, h3]
        rw [h1]
        refine filter_subframe
          (P := fun k =>
            !le dst k && !((listdir fs src).any (fun m => le (src ++ [m]) k)))
          (Q := fun k => !le dst k && !le src k) ?_ hframe3
        intro k hk
        simp only [Bool.and_eq_true, Bool.not_eq_true', List.any_eq_false] at hk ⊢
        refine ⟨hk.1, ?_⟩
        intro m _
        rcases h2 : le (src ++ [m]) k
        · simp
        · have h3 : le src k = true := le_trans (le_append src [m]) h2
          rw [hk.2] at h3
          cases h3
    · -- non-directory source: `os.rename`
      rw [if_neg hsdir]
      have hclear1 : ∀ k, le dst k = true → fsGet fs1 k = none := by
        intro k hk
        rw [hget1, if_pos hk]
      have hex_src : fsExists fs1 src = true := by
        rw [fsExists, hsrc1]
        exact hsome
      have hex_dst : fsExists fs1 dst = false := by
        rw [fsExists, hdstnone1]
        rfl
      rw [rename_eq_ok hex_src hex_dst hdne hpar1]
      refine ⟨renameMap fs1 src dst, rfl,
        wf_renameMap hwf1 hclear1 hsd hds hdne (isdir_iff.mp hpar1), ?_, ?_⟩
      · intro k
        rw [@fsGet_renameMap fs1 src dst hclear1 k]
        rcases hp : prefixRest dst k with _ | rest
        · simp only
          rw [moveResultGet_of_none hp]
          by_cases hlek : le src k = true
          · rw [if_pos hlek, if_pos hlek]
          · rw [if_neg hlek, if_neg hlek, hget1,
              if_neg (by rw [prefixRest_eq_none_iff.mp hp]; simp)]
        · simp only
          rw [moveResultGet_of_some hp, hget1,
            if_neg (by
              rw [le_disjoint hsd hds (le_append src rest)]
              simp)]
      · rw [filter_renameMap]
        refine filter_subframe (P := fun k => !le dst k)
          (Q := fun k => !le dst k && !le src k) ?_ hframe1
        intro k hk
        simp only [Bool.and_eq_true] at hk
        exact hk.1

/-! ## String-level facts: trailing slashes, `dirname`, `safe_join` -/

theorem rstripSlash_no_trailing :
    ∀ l : List Char,
      (match (rstripSlash l).getLast? with
        | some c => decide (c = '/')
        | none => false) = false := by
  intro l
  induction l with
  | nil => rfl
  | cons c cs ih =>
    rw [rstripSlash]
    rcases h : rstripSlash cs with _ | ⟨a, r⟩
    · simp only
      by_cases hc : c = '/' <;> simp [hc]
    · simp only
      rw [h] at ih
      simpa [List.getLast?_cons_cons] using ih

theorem endsSlash_normPath (s : String) : endsSlash (normPath s) = false := by
  have h := rstripSlash_no_trailing s.data
  rw [endsSlash, normPath]
  exact h

theorem rfindSlash_eq_none {l : List Char} (h : '/' ∉ l) :
    rfindSlash l = none := by
  induction l with
  | nil => rfl
  | cons c cs ih =>
    rw [rfindSlash, ih (fun hm => h (List.mem_cons_of_mem _ hm))]
    rw [if_neg (fun hc : c = '/' => h (by
      rw [← hc]
      exact List.mem_cons_self c cs))]

theorem parentPath_empty : parentPath ("") = "" := rfl

theorem parentPath_no_sep {p : String} (h : '/' ∉ p.data) :
    parentPath p = "" := by
  rw [parentPath, dirname, rfindSlash_eq_none h]
  rfl

/-- The segments kept by `normStack` are real descend-only names: never empty,
`.` or `..`. -/
def goodSeg (s : String) : Prop :=
  s ≠ "" ∧ s ≠ "." ∧ s ≠ ".."

theorem normStack_cons (st : List String) (seg : String) (rest : List String) :
    normStack st (seg :: rest)
      = (if seg = "" ∨ seg = "." then normStack st rest
        else if seg = ".." then
          match st with
          | [] => .error .pathEscape
          | _ :: st2 => normStack st2 rest
        else normStack (seg :: st) rest) := rfl

theorem normStack_good :
    ∀ (segs st : List String), (∀ s ∈ st, goodSeg s) →
      ∀ out, normStack st segs = .ok out → ∀ s ∈ out, goodSeg s := by
  intro segs
  induction segs with
  | nil =>
    intro st hst out hout s hs
    simp only [normStack, Except.ok.injEq] at hout
    subst hout
    exact hst s (List.mem_reverse.mp hs)
  | cons seg rest ih =>
    intro st hst out hout s hs
    rw [normStack_cons] at hout
    by_cases h1 : seg = "" ∨ seg = "."
    · rw [if_pos h1] at hout
      exact ih st hst out hout s hs
    · rw [if_neg h1] at hout
      by_cases h2 : seg = ".."
      · rw [if_pos h2] at hout
        rcases st with _ | ⟨t, st2⟩
        · cases hout
        · exact ih st2 (fun x hx => hst x (List.mem_cons_of_mem _ hx)) out hout s hs
      · rw [if_neg h2] at hout
        refine ih (seg :: st) ?_ out hout s hs
        intro x hx
        rcases List.mem_cons.mp hx with rfl | hx2
        · push_neg at h1
          exact ⟨h1.1, h1.2, h2⟩
        · exact hst x hx2

/-! ## Injectivity of the UTF-8 encoding -/

/-- Decoding of the first UTF-8 scalar from a byte sequence. -/
def utf8DecodeHead : List Nat → Nat
  | [] => 0
  | b :: rest =>
    if b < 192 then b
    else if b < 224 then (b - 192) * 64 + (rest.headD 0 - 128)
    else if b < 240 then
      (b - 224) * 4096 + (rest.headD 0 - 128) * 64 + (rest.tail.headD 0 - 128)
    else
      (b - 240) * 262144 + (rest.headD 0 - 128) * 4096
        + (rest.tail.headD 0 - 128) * 64 + (rest.tail.tail.headD 0 - 128)

theorem utf8DecodeHead_charUtf8 (c : Char) (rest : List Nat) :
    utf8DecodeHead (charUtf8 c ++ rest) = c.toNat := by
  unfold charUtf8
  by_cases h1 : c.toNat < 128
  · rw [if_pos h1]
    rw [List.cons_append, utf8DecodeHead, if_pos (by omega)]
  · rw [if_neg h1]
    by_cases h2 : c.toNat < 2048
    · rw [if_pos h2]
      rw [List.cons_append, utf8DecodeHead, if_neg (by omega), if_pos (by omega)]
      simp only [List.cons_append, List.headD_cons]
      omega
    · rw [if_neg h2]
      by_cases h3 : c.toNat < 65536
      · rw [if_pos h3]
        rw [List.cons_append, utf8DecodeHead, if_neg (by omega),
          if_neg (by omega), if_pos (by omega)]
        simp only [List.cons_append, List.headD_cons, List.tail_cons]
        omega
      · rw [if_neg h3]
        rw [List.cons_append, utf8DecodeHead, if_neg (by omega),
          if_neg (by omega), if_neg (by omega)]
        simp only [List.cons_append, List.headD_cons, List.tail_cons]
        omega

/-- Number of bytes of a UTF-8 sequence, as determined by its first byte. -/
def utf8Len (b : Nat) : Nat :=
  if b < 192 then 1 else if b < 224 then 2 else if b < 240 then 3 else 4

theorem charUtf8_length (c : Char) :
    (charUtf8 c).length = utf8Len ((charUtf8 c).headD 0) := by
  unfold charUtf8 utf8Len
  by_cases h1 : c.toNat < 128
  · rw [if_pos h1]
    simp only [List.headD_cons, List.length_cons, List.length_nil]
    rw [if_pos (by omega)]
  · rw [if_neg h1]
    by_cases h2 : c.toNat < 2048
    · rw [if_pos h2]
      simp only [List.headD_cons, List.length_cons, List.length_nil]
      rw [if_neg (by omega), if_pos (by omega)]
    · rw [if_neg h2]
      by_cases h3 : c.toNat < 65536
      · rw [if_pos h3]
        simp only [List.headD_cons, List.length_cons, List.length_nil]
        rw [if_neg (by omega), if_neg (by omega), if_pos (by omega)]
      · rw [if_neg h3]
        simp only [List.headD_cons, List.length_cons, List.length_nil]
        rw [if_neg (by omega), if_neg (by omega), if_neg (by omega)]

theorem charUtf8_ne_nil (c : Char) : charUtf8 c ≠ [] := by
  unfold charUtf8
  by_cases h1 : c.toNat < 128
  · simp [h1]
  · by_cases h2 : c.toNat < 2048
    · simp [h1, h2]
    · by_cases h3 : c.toNat < 65536
      · simp [h1, h2, h3]
      · simp [h1, h2, h3]

theorem char_eq_of_toNat_eq {c1 c2 : Char} (h : c1.toNat = c2.toNat) :
    c1 = c2 :=
  Char.ofNat_toNat c1 ▸ Char.ofNat_toNat c2 ▸ congrArg Char.ofNat h

theorem flatMap_charUtf8_inj :
    ∀ l1 l2 : List Char, l1.flatMap charUtf8 = l2.flatMap charUtf8 → l1 = l2 := by
  intro l1
  induction l1 with
  | nil =>
    intro l2 h
    cases l2 with
    | nil => rfl
    | cons c2 l2 =>
      exfalso
      rw [List.flatMap_nil, List.flatMap_cons] at h
      rcases hx : charUtf8 c2 with _ | ⟨b, bs⟩
      · exact charUtf8_ne_nil c2 hx
      · rw [hx] at h
        cases h
  | cons c1 l1 ih =>
    intro l2 h
    cases l2 with
    | nil =>
      exfalso
      rw [List.flatMap_nil, List.flatMap_cons] at h
      rcases hx : charUtf8 c1 with _ | ⟨b, bs⟩
      · exact charUtf8_ne_nil c1 hx
      · rw [hx] at h
        cases h
    | cons c2 l2 =>
      rw [List.flatMap_cons, List.flatMap_cons] at h
      have hn : c1.toNat = c2.toNat := by
        rw [← utf8DecodeHead_charUtf8 c1 (l1.flatMap charUtf8), h,
          utf8DecodeHead_charUtf8]
      have hlen : (charUtf8 c1).length = (charUtf8 c2).length := by
        have hh : (charUtf8 c1).headD 0 = (charUtf8 c2).headD 0 := by
          rcases hx : charUtf8 c1 with _ | ⟨b1, bs1⟩
          · exact absurd hx (charUtf8_ne_nil c1)
          · rcases hy : charUtf8 c2 with _ | ⟨b2, bs2⟩
            · exact absurd hy (charUtf8_ne_nil c2)
            · rw [hx, hy] at h
              simp only [List.cons_append, List.cons.injEq] at h
              simp [h.1]
        rw [charUtf8_length c1, charUtf8_length c2, hh]
      rcases List.append_inj h hlen with ⟨h1, h2⟩
      rw [char_eq_of_toNat_eq hn, ih l2 h2]

theorem utf8_inj {s1 s2 : String} (h : utf8 s1 = utf8 s2) : s1 = s2 := by
  have h2 := flatMap_charUtf8_inj s1.data s2.data h
  cases s1
  cases s2
  exact congrArg String.mk h2

/-! ## `get_etag` facts -/

theorem get_etag_eq_md5 (a m s : String) :
    get_etag a m s = md5Hex (etagInput a m s) := by
  unfold get_etag HashCtx.hexdigest HashCtx.update md5new etagInput
  simp [List.append_assoc]

theorem etagInput_inj_path {a1 a2 m s : String}
    (h : etagInput a1 m s = etagInput a2 m s) : a1 = a2 := by
  unfold etagInput at h
  exact utf8_inj (List.append_cancel_right (List.append_cancel_right h))

/-! ## `copy` at depth 0, and an item copied over a collection -/

theorem subCount_le_one_of_file {fs : Fs} (hwf : wf fs) {p : Path}
    (hp : fsGet fs p ≠ some Entry.dir) : subCount fs p ≤ 1 := by
  rw [subCount]
  refine filter_length_le_one hwf.1 (a := p) ?_
  intro pe hpe hppe
  by_contra hne
  have h1 := fsGet_none_of_not_dir hwf hp (by simpa using hppe)
    (fun h => hne h.symm)
  have h2 := fsGet_isSome_of_mem hpe
  rw [h1] at h2
  cases h2

theorem copyOp_depth0 :
    ∀ (fuel : Nat) (fs : Fs) (src dst : Path),
      wf fs → isdir fs src = true → isdir fs dst = false →
      dst ≠ [] → isdir fs dst.dropLast = true → 2 < fuel →
      ∃ fs0, copyOp fuel fs src dst 0 = .ok fs0 ∧
        isdir fs0 dst = true ∧ listdir fs0 dst = [] ∧
        (∀ k, le dst k = false → fsGet fs0 k = fsGet fs k) := by
  intro fuel fs src dst hwf hsrc hddir hdne hdpar hfuel
  cases fuel with
  | zero => omega
  | succ F =>
    rw [copyOp, if_pos hsrc]
    have hfs1 : ∃ fs1,
        (if isfile fs dst = true then deleteOp F fs dst else .ok fs) = .ok fs1 ∧
        wf fs1 ∧
        (∀ k, fsGet fs1 k = if le dst k = true then none else fsGet fs k) := by
      by_cases hf : isfile fs dst = true
      · refine ⟨removeSubtree fs dst, ?_, wf_removeSubtree hwf dst, ?_⟩
        · rw [if_pos hf]
          refine deleteOp_correct F fs dst hwf ?_
          have := subCount_le_one_of_file hwf (p := dst) (by
            rcases isfile_iff.mp hf with ⟨c, hc⟩
            rw [hc]
            simp)
          omega
        · intro k
          rw [fsGet_removeSubtree]
      · rw [if_neg hf]
        have hnone : fsGet fs dst = none := by
          rcases h : fsGet fs dst with _ | e
          · rfl
          · exfalso
            cases e
            · rw [isdir_iff.mpr h] at hddir
              cases hddir
            · exact hf (isfile_iff.mpr ⟨_, h⟩)
        refine ⟨fs, rfl, hwf, ?_⟩
        intro k
        by_cases hle : le dst k = true
        · rw [if_pos hle]
          by_cases hk : k = dst
          · rw [hk, hnone]
          · exact fsGet_none_of_not_dir hwf (by rw [hnone]; simp) hle
              (fun h => hk h.symm)
        · rw [if_neg hle]
    obtain ⟨fs1, hrun1, hwf1, hget1⟩ := hfs1
    rw [hrun1]
    simp only
    have hdstnone1 : fsGet fs1 dst = none := by
      rw [hget1 dst, if_pos (le_refl dst)]
    have hdir1 : isdir fs1 dst = false := by
      rw [isdir, hdstnone1]
      rfl
    rw [hdir1]
    simp only [Bool.false_eq_true, if_false]
    have hpar1 : isdir fs1 dst.dropLast = true := by
      rw [isdir_iff, hget1, if_neg (by rw [le_dropLast_false hdne]; simp)]
      exact isdir_iff.mp hdpar
    rw [mkdir_eq_ok hdstnone1 hdne hpar1]
    simp only
    rw [if_neg (by simp : ¬ (0 : Int) ≠ 0)]
    refine ⟨fs1 ++ [(dst, Entry.dir)], rfl, ?_, ?_, ?_⟩
    · rw [isdir_iff, fsGet_append_single, hdstnone1]
      simp
    · rw [listdir_append]
      have h1 : listdir fs1 dst = [] := by
        rw [listdir_eq_nil_iff]
        rintro ⟨k0, e0⟩ hpe
        rcases hc : childName dst k0 with _ | n
        · rfl
        · exfalso
          have hk := childName_eq_some.mp hc
          have h2 : fsGet fs1 k0 = none := by
            rw [hget1, if_pos (by rw [hk]; exact le_append dst [n])]
          have h3 := fsGet_isSome_of_mem hpe
          simp only at h3
          rw [h2] at h3
          cases h3
      have h2 : listdir [((dst : Path), Entry.dir)] dst = [] := by
        simp only [listdir, List.filterMap]
        rw [show childName dst dst = none from by
          rw [childName, prefixRest_self]]
      rw [h1, h2]
      rfl
    · intro k hk
      rw [fsGet_append_single, hget1, if_neg (by rw [hk]; simp)]
      rcases h2 : fsGet fs k with _ | v
      · simp only
        rw [if_neg (by
          rintro rfl
          rw [le_refl] at hk
          cases hk)]
      · rfl

theorem copyOp_file_over_dir :
    ∀ (fuel : Nat) (fs : Fs) (src dst : Path) (depth : Int) (c : String),
      wf fs → fsGet fs src = some (Entry.file c) → isdir fs dst = true →
      le dst src = false → subCount fs dst + 1 < fuel →
      ∃ fs2, copyOp fuel fs src dst depth = .ok fs2 ∧
        fsGet fs2 dst = some (Entry.file c) ∧
        fsGet fs2 src = some (Entry.file c) ∧
        (∀ k, le dst k = true → k ≠ dst → fsGet fs2 k = none) ∧
        (∀ k, le dst k = false → k ≠ src → fsGet fs2 k = fsGet fs k) := by
  intro fuel fs src dst depth c hwf hsrc hdst hds harith
  have hdne : dst ≠ [] := by
    rintro rfl
    rw [le_nil] at hds
    cases hds
  cases fuel with
  | zero => omega
  | succ F =>
    have hsrcdir : isdir fs src = false := by
      rw [isdir, hsrc]
      rfl
    rw [copyOp, hsrcdir]
    simp only [Bool.false_eq_true, if_false]
    rw [if_pos hdst, deleteOp_correct F fs dst hwf (by omega)]
    simp only
    have hget1 : ∀ k, fsGet (removeSubtree fs dst) k
        = if le dst k = true then none else fsGet fs k := by
      intro k
      rw [fsGet_removeSubtree]
    have hsrc1 : fsGet (removeSubtree fs dst) src = some (Entry.file c) := by
      rw [hget1, if_neg (by rw [hds]; simp), hsrc]
    have hdst1 : fsGet (removeSubtree fs dst) dst = none := by
      rw [hget1, if_pos (le_refl dst)]
    have hddir1 : isdir (removeSubtree fs dst) dst = false := by
      rw [isdir, hdst1]
      rfl
    have hpar1 : isdir (removeSubtree fs dst) dst.dropLast = true := by
      rw [isdir_iff, hget1, if_neg (by rw [le_dropLast_false hdne]; simp)]
      refine hwf.2 (dst, Entry.dir) (fsGet_mem (isdir_iff.mp hdst)) hdne
    have hrun : shutilCopy (removeSubtree fs dst) src dst
        = .ok (fsPut (removeSubtree fs dst) dst (Entry.file c)) := by
      rw [shutilCopy.eq_def, hsrc1]
      simp only
      rw [hddir1]
      simp only [Bool.false_eq_true, if_false]
      rw [hdst1]
      simp only
      cases dst with
      | nil => exact absurd rfl hdne
      | cons a d => rw [if_pos hpar1]
    rw [hrun]
    refine ⟨_, rfl, ?_, ?_, ?_, ?_⟩
    · rw [fsGet_fsPut, if_pos rfl]
    · rw [fsGet_fsPut, if_neg (by
        rintro rfl
        rw [isdir_iff.mp hdst] at hsrc
        simp at hsrc), hsrc1]
    · intro k hk hkne
      rw [fsGet_fsPut, if_neg hkne, hget1, if_pos hk]
    · intro k hk hkne
      rw [fsGet_fsPut, if_neg (by
        rintro rfl
        rw [le_refl] at hk
        cases hk), hget1, if_neg (by rw [hk]; simp)]

/-! ## Concrete stores used by witnesses and counterexamples -/

/-- A root holding one directory `a` with one file `a/b`. -/
def fsW : Fs := [([], Entry.dir), (["a"], Entry.dir), (["a", "b"], Entry.file ("x"))]

/-- A root holding `a` (with file `a/f`) and a nonempty directory `c`. -/
def fsC4 : Fs :=
  [([], Entry.dir), (["a"], Entry.dir), (["a", "f"], Entry.file ("x")),
   (["c"], Entry.dir), (["c", "g"], Entry.file ("y"))]

/-- A root holding two plain files `a` and `b`. -/
def fsC3 : Fs := [([], Entry.dir), (["a"], Entry.file ("x")), (["b"], Entry.file ("y"))]

/-! ## The claims -/

/-- C1: for every caller-supplied relative path, a successful `get_abs_path`
(= `safe_join(root, path)`) is the root extended by normalised descend-only
segments — never a location outside the root — and a `../../etc/passwd`-style
input fails with the `PathEscape` error instead of resolving. -/
theorem C1_safe_join_no_escape :
    (∀ root path out : String, safe_join root path = .ok out →
      ∃ segs : List String, (∀ s ∈ segs, goodSeg s) ∧
        out = segs.foldl (fun a seg => a ++ "/" ++ seg) root) ∧
    (∀ root : String,
      safe_join root ("../../etc/passwd") = .error .pathEscape) := by
  constructor
  · intro root path out hok
    unfold safe_join at hok
    rcases h : normStack [] (splitSlash [] path.data) with e | segs
    · rw [h] at hok
      simp [Except.map] at hok
    · rw [h] at hok
      simp only [Except.map, Except.ok.injEq] at hok
      exact ⟨segs, normStack_good _ [] (by simp) segs h, hok.symm⟩
  · intro root
    unfold safe_join
    rw [show normStack [] (splitSlash [] ("../../etc/passwd" : String).data)
        = .error .pathEscape from rfl]
    rfl

/-- C1 witness: a benign path joins to a location inside the root, and the
traversal input is rejected, at concrete inputs. -/
theorem C1_witness :
    (safe_join ("/srv/dav") ("docs/report.txt") = .ok ("/srv/dav/docs/report.txt")) ∧
    (∃ segs : List String, (∀ s ∈ segs, goodSeg s) ∧
      ("/srv/dav/docs/report.txt" : String)
        = segs.foldl (fun a seg => a ++ "/" ++ seg) ("/srv/dav")) ∧
    safe_join ("/x") ("../../etc/passwd") = .error .pathEscape :=
  ⟨rfl,
   C1_safe_join_no_escape.1 ("/srv/dav") ("docs/report.txt")
     ("/srv/dav/docs/report.txt") rfl,
   C1_safe_join_no_escape.2 ("/x")⟩

/-- C2 counterexample: the claim demands a different etag whenever mtime or
size differs, but because `get_etag` concatenates the path, `str(mtime)` and
`str(size)` without separators, the states (mtime `1.0`, size `23`) and
(mtime `1.02`, size `3`) of the same file feed identical bytes to MD5 and get
the same etag, although both mtime and size differ. -/
theorem C2_counterexample :
    get_etag ("/srv/dav/a.txt") ("1.0") ("23")
      = get_etag ("/srv/dav/a.txt") ("1.02") ("3") ∧
    ("1.0" : String) ≠ ("1.02") ∧ ("23" : String) ≠ ("3") := by
  refine ⟨?_, by decide, by decide⟩
  rw [get_etag_eq_md5, get_etag_eq_md5]
  exact congrArg md5Hex (by decide)

/-- C2 (amended): the etag is the MD5 of the concatenated path/mtime/size
bytes, so it is unchanged whenever those three are unchanged; resources at
distinct physical paths with identical mtime and size always feed distinct
byte strings into MD5 (the digests can only coincide through an MD5
collision).  A mtime/size change, however, need not change the etag (see the
counterexample). -/
theorem C2_amended (a1 a2 m s : String) (h : a1 ≠ a2) :
    get_etag a1 m s = md5Hex (etagInput a1 m s) ∧
    etagInput a1 m s ≠ etagInput a2 m s :=
  ⟨get_etag_eq_md5 a1 m s, fun hc => h (etagInput_inj_path hc)⟩

/-- C2 witness: the amended statement at two concrete distinct paths. -/
theorem C2_witness :
    (("/r/a" : String) ≠ ("/r/b")) ∧
    (get_etag ("/r/a") ("1.0") ("5") = md5Hex (etagInput ("/r/a") ("1.0") ("5")) ∧
      etagInput ("/r/a") ("1.0") ("5") ≠ etagInput ("/r/b") ("1.0") ("5")) :=
  ⟨by decide, C2_amended ("/r/a") ("/r/b") ("1.0") ("5") (by decide)⟩

/-- C3: evaluation at the failing input.  On a collection holding the two
items `a` and `b`, `get_descendants(depth=-1, include_self=True)` yields the
root and then `a`, and then raises NotADirectory from `os.listdir` on the
item `a` instead of yielding `b` — it does not produce every node of the
subtree in pre-order.  The `depth == 0` cases do behave as claimed. -/
theorem C3_failing_eval :
    get_descendants 9 fsC3 [] (-1) true = ([[], ["a"]], some Err.notADir) ∧
    get_descendants 9 fsC3 [] 0 true = ([[]], none) ∧
    get_descendants 9 fsC3 [] 0 false = ([], none) := by
  refine ⟨?_, ?_, ?_⟩ <;> decide

/-- C4 counterexample: a depth-0 copy of the collection `a` (which has a
child) onto the pre-existing nonempty collection `c` leaves the store — and
in particular the destination's child `c/g` — untouched, so the destination
collection is not empty, contrary to the claim. -/
theorem C4_counterexample :
    isdir fsC4 ["a"] = true ∧ listdir fsC4 ["a"] ≠ [] ∧
    copyOp 9 fsC4 ["a"] ["c"] 0 = .ok fsC4 ∧
    listdir fsC4 ["c"] = ["g"] := by
  refine ⟨by decide, by decide, rfl, by decide⟩

/-- C4 (amended): for a collection source and a destination that does not
already exist as a collection, is disjoint from the source and whose parent
is a collection: the depth-0 copy produces an empty destination collection
and changes nothing outside the destination subtree, and any negative-depth
copy produces a destination subtree identical to the source subtree and
changes nothing outside the destination subtree.  (If the destination
already exists as a collection, its previous children are retained, as the
counterexample shows.) -/
theorem C4_amended (fuel : Nat) (fs : Fs) (src dst : Path)
    (hwf : wf fs) (hsrc : isdir fs src = true) (hddir : isdir fs dst = false)
    (hdne : dst ≠ []) (hdpar : isdir fs dst.dropLast = true)
    (hsd : le src dst = false) (hds : le dst src = false)
    (hfuel : subCount fs src + subCount fs dst + 2 < fuel) :
    (∃ fs0, copyOp fuel fs src dst 0 = .ok fs0 ∧
      isdir fs0 dst = true ∧ listdir fs0 dst = [] ∧
      (∀ k, le dst k = false → fsGet fs0 k = fsGet fs k)) ∧
    (∀ depth : Int, depth < 0 →
      ∃ fs1, copyOp fuel fs src dst depth = .ok fs1 ∧
        (∀ rest, fsGet fs1 (dst ++ rest) = fsGet fs (src ++ rest)) ∧
        (∀ k, le dst k = false → fsGet fs1 k = fsGet fs k)) := by
  constructor
  · exact copyOp_depth0 fuel fs src dst hwf hsrc hddir hdne hdpar (by omega)
  · intro depth hdep
    have hyp : CopyHyp fuel fs src dst depth :=
      ⟨hwf, by rw [isdir_iff.mp hsrc]; rfl, hdep, hsd, hds, hdne, hdpar, hddir,
        by omega⟩
    obtain ⟨fs1, hrun, _, hget, _⟩ := copyOp_master fuel fs src dst depth hyp
    refine ⟨fs1, hrun, ?_, ?_⟩
    · intro rest
      rw [hget, copyResultGet_of_some (prefixRest_append dst rest)]
    · intro k hk
      rw [hget, copyResultGet_of_none (prefixRest_eq_none_iff.mpr hk)]

/-- C4 witness: the amended statement at a concrete store, copying the
collection `a` to the fresh location `d`. -/
theorem C4_witness :
    (wf fsC4 ∧ isdir fsC4 ["a"] = true ∧ isdir fsC4 ["d"] = false ∧
      subCount fsC4 ["a"] + subCount fsC4 ["d"] + 2 < 9) ∧
    ((∃ fs0, copyOp 9 fsC4 ["a"] ["d"] 0 = .ok fs0 ∧
        isdir fs0 ["d"] = true ∧ listdir fs0 ["d"] = [] ∧
        (∀ k, le ["d"] k = false → fsGet fs0 k = fsGet fsC4 k)) ∧
      (∀ depth : Int, depth < 0 →
        ∃ fs1, copyOp 9 fsC4 ["a"] ["d"] depth = .ok fs1 ∧
          (∀ rest, fsGet fs1 (["d"] ++ rest) = fsGet fsC4 (["a"] ++ rest)) ∧
          (∀ k, le ["d"] k = false → fsGet fs1 k = fsGet fsC4 k))) :=
  ⟨⟨by unfold wf; decide, by decide, by decide, by decide⟩,
   C4_amended 9 fsC4 ["a"] ["d"] (by unfold wf; decide) (by decide) (by decide)
     (by decide) (by decide) (by decide) (by decide) (by decide)⟩

/-- C5 counterexample: moving the item `a/b` onto the collection `a` — a
destination the claim quantifies over — first deletes `a` entirely (removing
the source with it) and then fails with NotFound in the rename, instead of
renaming the source to the destination. -/
theorem C5_counterexample :
    isfile fsW ["a", "b"] = true ∧ fsExists fsW ["a"] = true ∧
    moveOp 9 fsW ["a", "b"] ["a"] = .error Err.notFound := by
  refine ⟨by decide, by decide, rfl⟩

/-- C5 (amended): for a source disjoint from the destination, with the
destination's parent an existing collection: `move` deletes a pre-existing
destination of any type, after which the source subtree (item or collection)
is found in full at the destination, the source is gone, and everything
outside the two subtrees is unchanged; an item source goes through the single
store-level rename primitive. -/
theorem C5_amended (fuel : Nat) (fs : Fs) (src dst : Path)
    (hwf : wf fs) (hex : fsExists fs src = true)
    (hsd : le src dst = false) (hds : le dst src = false)
    (hdne : dst ≠ []) (hdpar : isdir fs dst.dropLast = true)
    (hfuel : subCount fs src + subCount fs dst + 1 < fuel) :
    ∃ fs2, moveOp fuel fs src dst = .ok fs2 ∧
      fsGet fs2 src = none ∧
      (∀ rest, fsGet fs2 (dst ++ rest) = fsGet fs (src ++ rest)) ∧
      (∀ k, le dst k = false → le src k = false → fsGet fs2 k = fsGet fs k) := by
  have hyp : MoveHyp fuel fs src dst :=
    ⟨hwf, by unfold fsExists at hex; exact hex, hsd, hds, hdne, hdpar, hfuel⟩
  obtain ⟨fs2, hrun, _, hget, _⟩ := moveOp_master fuel fs src dst hyp
  refine ⟨fs2, hrun, ?_, ?_, ?_⟩
  · rw [hget, moveResultGet_of_none (prefixRest_eq_none_iff.mpr hds),
      if_pos (le_refl src)]
  · intro rest
    rw [hget, moveResultGet_of_some (prefixRest_append dst rest)]
  · intro k h1 h2
    rw [hget, moveResultGet_of_none (prefixRest_eq_none_iff.mpr h1),
      if_neg (by rw [h2]; simp)]

/-- C5 witness: the amended statement at a concrete store, moving the
collection `a` (holding the file `a/b`) to the fresh location `d`. -/
theorem C5_witness :
    (wf fsW ∧ fsExists fsW ["a"] = true ∧
      subCount fsW ["a"] + subCount fsW ["d"] + 1 < 9) ∧
    (∃ fs2, moveOp 9 fsW ["a"] ["d"] = .ok fs2 ∧
      fsGet fs2 ["a"] = none ∧
      (∀ rest, fsGet fs2 (["d"] ++ rest) = fsGet fsW (["a"] ++ rest)) ∧
      (∀ k, le ["d"] k = false → le ["a"] k = false →
        fsGet fs2 k = fsGet fsW k)) :=
  ⟨⟨by unfold wf; decide, by decide, by decide⟩,
   C5_amended 9 fsW ["a"] ["d"] (by unfold wf; decide) (by decide) (by decide)
     (by decide) (by decide) (by decide) (by decide)⟩

/-- C6: `delete` removes the whole subtree at the location (children first,
then the emptied collection; an item directly); at a location holding
nothing it is a silent no-op returning the store unchanged, and a second
`delete` of an already-deleted location likewise succeeds as a no-op. -/
theorem C6_delete (fuel : Nat) (fs : Fs) (p : Path)
    (hwf : wf fs) (hfuel : subCount fs p < fuel) :
    deleteOp fuel fs p = .ok (removeSubtree fs p) ∧
    (∀ k, le p k = true → fsGet (removeSubtree fs p) k = none) ∧
    (∀ k, le p k = false → fsGet (removeSubtree fs p) k = fsGet fs k) ∧
    (fsExists fs p = false → deleteOp fuel fs p = .ok fs) ∧
    deleteOp fuel (removeSubtree fs p) p = .ok (removeSubtree fs p) := by
  have h1 := deleteOp_correct fuel fs p hwf hfuel
  have hwf2 := wf_removeSubtree hwf p
  have hnone : fsGet (removeSubtree fs p) p = none := by
    rw [fsGet_removeSubtree, if_pos (le_refl p)]
  refine ⟨h1, ?_, ?_, ?_, ?_⟩
  · intro k hk
    rw [fsGet_removeSubtree, if_pos hk]
  · intro k hk
    rw [fsGet_removeSubtree, if_neg (by rw [hk]; simp)]
  · intro hex
    have hn : fsGet fs p = none := by
      unfold fsExists at hex
      rcases h : fsGet fs p with _ | e
      · rfl
      · rw [h] at hex
        cases hex
    rw [h1, removeSubtree_of_none hwf hn]
  · have h2 := deleteOp_correct fuel (removeSubtree fs p) p hwf2
      (lt_of_le_of_lt (by
        simp only [removeSubtree]
        exact subCount_filter_le fs _ p) hfuel)
    rw [h2, removeSubtree_of_none hwf2 hnone]

/-- C6 witness: deleting the collection `a` of a concrete store, and the
silent no-op on the missing location, via the theorem at concrete inputs. -/
theorem C6_witness :
    (wf fsW ∧ subCount fsW ["a"] < 9) ∧
    (deleteOp 9 fsW ["a"] = .ok (removeSubtree fsW ["a"]) ∧
      (∀ k, le ["a"] k = true → fsGet (removeSubtree fsW ["a"]) k = none) ∧
      (∀ k, le ["a"] k = false →
        fsGet (removeSubtree fsW ["a"]) k = fsGet fsW k) ∧
      (fsExists fsW ["a"] = false → deleteOp 9 fsW ["a"] = .ok fsW) ∧
      deleteOp 9 (removeSubtree fsW ["a"]) ["a"]
        = .ok (removeSubtree fsW ["a"])) :=
  ⟨⟨by unfold wf; decide, by decide⟩,
   C6_delete 9 fsW ["a"] (by unfold wf; decide) (by decide)⟩

/-- C7 counterexample: copying the item `a/b` over the collection `a` — a
destination that exists as a collection, as the claim demands — deletes the
whole destination collection including the source and then fails with
NotFound, rather than performing a byte copy that leaves the source
unchanged. -/
theorem C7_counterexample :
    isfile fsW ["a", "b"] = true ∧ isdir fsW ["a"] = true ∧
    copyOp 9 fsW ["a", "b"] ["a"] 0 = .error Err.notFound := by
  refine ⟨by decide, by decide, rfl⟩

/-- C7 (amended): for an item source and a destination collection that is not
an ancestor of the source, `copy` first deletes the whole destination
collection with all its descendants and then byte-copies the source to the
destination location, leaving the source (and everything outside the old
destination subtree) unchanged. -/
theorem C7_amended (fuel : Nat) (fs : Fs) (src dst : Path) (depth : Int)
    (c : String) (hwf : wf fs) (hsrc : fsGet fs src = some (Entry.file c))
    (hdst : isdir fs dst = true) (hds : le dst src = false)
    (hfuel : subCount fs dst + 1 < fuel) :
    ∃ fs2, copyOp fuel fs src dst depth = .ok fs2 ∧
      fsGet fs2 dst = some (Entry.file c) ∧
      fsGet fs2 src = some (Entry.file c) ∧
      (∀ k, le dst k = true → k ≠ dst → fsGet fs2 k = none) ∧
      (∀ k, le dst k = false → k ≠ src → fsGet fs2 k = fsGet fs k) :=
  copyOp_file_over_dir fuel fs src dst depth c hwf hsrc hdst hds hfuel

/-- C7 witness: the amended statement at a concrete store, copying the item
`a/f` over the nonempty collection `c`. -/
theorem C7_witness :
    (wf fsC4 ∧ fsGet fsC4 ["a", "f"] = some (Entry.file ("x")) ∧
      isdir fsC4 ["c"] = true ∧ subCount fsC4 ["c"] + 1 < 9) ∧
    (∃ fs2, copyOp 9 fsC4 ["a", "f"] ["c"] 0 = .ok fs2 ∧
      fsGet fs2 ["c"] = some (Entry.file ("x")) ∧
      fsGet fs2 ["a", "f"] = some (Entry.file ("x")) ∧
      (∀ k, le ["c"] k = true → k ≠ ["c"] → fsGet fs2 k = none) ∧
      (∀ k, le ["c"] k = false → k ≠ ["a", "f"] →
        fsGet fs2 k = fsGet fsC4 k)) :=
  ⟨⟨by unfold wf; decide, by decide, by decide, by decide⟩,
   C7_amended 9 fsC4 ["a", "f"] ["c"] 0 ("x") (by unfold wf; decide) (by decide)
     (by decide) (by decide) (by decide)⟩

/-- C8: `get_etag` equals the lowercase hex digest of one MD5 hash taken over
the concatenation — in this order — of the UTF-8 bytes of the absolute path,
the bytes of the modification-time string and the bytes of the size string;
being a pure function of those three values, repeated calls with them
unchanged return the same etag. -/
theorem C8_etag_hash_input (a m s : String) :
    get_etag a m s = md5Hex (utf8 a ++ utf8 m ++ utf8 s) :=
  get_etag_eq_md5 a m s

/-- C9: the trailing-slash stripping loop of the constructor guarantees that
the stored logical path of every resource never ends in a path separator,
whatever string the caller supplies. -/
theorem C9_no_trailing_slash (s : String) : endsSlash (normPath s) = false :=
  endsSlash_normPath s

/-- C10: the parent of the root resource (logical path `""`) is again the
root, and more generally `get_parent` of any resource whose path has no `/`
separator is the root resource. -/
theorem C10_parent_root :
    parentPath ("") = "" ∧
    ∀ p : String, '/' ∉ p.data → parentPath p = "" :=
  ⟨parentPath_empty, fun _ h => parentPath_no_sep h⟩

/-- C10 witness: the parent of the single-segment resource `abc` is the
root. -/
theorem C10_witness :
    ('/' ∉ ("abc" : String).data) ∧ parentPath ("abc") = "" :=
  ⟨by decide, C10_parent_root.2 ("abc") (by decide)⟩

end DjangoDav
